import Mathlib

/-!
# Verification of the VTT cross-track cue synchronization engine

Shallow embedding of the synchronization core of `src/All-in-One.py`:
the functions `merge_cues_in_group` and `synchronize_cues`.

Timestamps are modelled as rationals: the Python code performs no arithmetic
on cue times inside this core (only `min`, `max`, comparisons and equality),
so any linearly ordered field models the float times faithfully here.

Python dictionaries keyed by `start_sec` are modelled as insertion-ordered
association lists of cues (the key of an entry is its `start_sec` field);
overwriting an existing key replaces the entry in place, preserving its
position, exactly as a Python dict does.  Python's `sorted`/`list.sort` are
stable sorts, modelled by `List.insertionSort` with the non-strict key
comparison (any two stable sorts by the same key agree).
-/

namespace VTT

/-- A subtitle cue: `{'start_sec': float, 'end_sec': float, 'text': str}`. -/
structure Cue where
  start_sec : ℚ
  end_sec : ℚ
  text : String
deriving DecidableEq, Repr

/-- An output pair `{'en_cue': ..., 'kr_cue': ...}` of `synchronize_cues`. -/
structure SyncedPair where
  en_cue : Cue
  kr_cue : Cue
deriving DecidableEq, Repr

/-- An output pair together with the two groups that produced it
(instrumentation: the Python code builds `overlapping_group_en` /
`overlapping_group_kr` and discards them; we record their final values so
that consumption can be stated). -/
structure SyncedPairExt where
  en_cue : Cue
  kr_cue : Cue
  group_en : List Cue
  group_kr : List Cue
deriving DecidableEq, Repr

/-- `min(c['start_sec'] for c in group)` (junk value `0` on `[]`;
the Python code never evaluates it on an empty group). -/
def minStart : List Cue → ℚ
  | [] => 0
  | c :: cs => cs.foldl (fun a x => min a x.start_sec) c.start_sec

/-- `max(c['end_sec'] for c in group)` (junk value `0` on `[]`). -/
def maxEnd : List Cue → ℚ
  | [] => 0
  | c :: cs => cs.foldl (fun a x => max a x.end_sec) c.end_sec

/-- The overlap predicate between two cues:
`max(a['start_sec'], b['start_sec']) < min(a['end_sec'], b['end_sec'])`. -/
def cueOverlap (a b : Cue) : Prop :=
  max a.start_sec b.start_sec < min a.end_sec b.end_sec

instance (a b : Cue) : Decidable (cueOverlap a b) :=
  inferInstanceAs (Decidable (_ < _))

/-- Overlap of a cue with a group's union interval `[s, e]`:
`max(s, c['start_sec']) < min(e, c['end_sec'])`. -/
def ivOverlap (s e : ℚ) (c : Cue) : Prop :=
  max s c.start_sec < min e c.end_sec

instance (s e : ℚ) (c : Cue) : Decidable (ivOverlap s e c) :=
  inferInstanceAs (Decidable (_ < _))

/-- `c['start_sec'] in group` for a dict keyed by `start_sec`. -/
def hasStart (g : List Cue) (s : ℚ) : Prop :=
  ∃ c ∈ g, c.start_sec = s

instance (g : List Cue) (s : ℚ) : Decidable (hasStart g s) :=
  List.decidableBEx _ g

/-- `group[c['start_sec']] = c` on a dict keyed by `start_sec`: if the key is
present its entry is replaced in place, otherwise the entry is appended. -/
def dictInsert (g : List Cue) (c : Cue) : List Cue :=
  match g with
  | [] => [c]
  | x :: xs => if x.start_sec = c.start_sec then c :: xs else x :: dictInsert xs c

/-- `merge_cues_in_group`: collapse a group of same-track cues into one cue
spanning their union interval, texts joined by `"\n"` in (stable) ascending
`start_sec` order; `None` on an empty group. -/
def merge_cues_in_group (group : List Cue) : Option Cue :=
  match group with
  | [] => none
  | _ :: _ =>
    let sorted_group := group.insertionSort (fun a b => a.start_sec ≤ b.start_sec)
    some { start_sec := minStart group
           end_sec := maxEnd group
           text := String.intercalate "\n" (sorted_group.map (·.text)) }

/-- The initial overlap scan of `synchronize_cues` (step 1): every
not-yet-consumed Korean cue overlapping the seed English cue is written into
the group dict (an unguarded dict write: a same-start later cue overwrites
an earlier one). -/
def initialKrGroup (en_cue : Cue) (kr_cues : List Cue) (used : List ℕ) : List Cue :=
  (kr_cues.enum).foldl
    (fun g jc =>
      if jc.1 ∈ used then g
      else if cueOverlap en_cue jc.2 then dictInsert g jc.2
      else g)
    []

/-- One English step of the expansion loop: add any English cue whose start
is not yet a key of the group and which overlaps the Korean union interval.
Returns the grown group and the `new_en_found` flag. -/
def expandEn (krS krE : ℚ) (en_cues : List Cue) (g : List Cue) : List Cue × Bool :=
  en_cues.foldl
    (fun gf c =>
      if hasStart gf.1 c.start_sec then gf
      else if ivOverlap krS krE c then (gf.1 ++ [c], true)
      else gf)
    (g, false)

/-- One Korean step of the expansion loop: add any Korean cue whose index is
not consumed, whose start is not yet a key of the group, and which overlaps
the English union interval.  Returns the grown group and `new_kr_found`. -/
def expandKr (enS enE : ℚ) (kr_cues : List Cue) (used : List ℕ) (g : List Cue) :
    List Cue × Bool :=
  (kr_cues.enum).foldl
    (fun gf jc =>
      if jc.1 ∉ used ∧ ¬ hasStart gf.1 jc.2.start_sec then
        if ivOverlap enS enE jc.2 then (gf.1 ++ [jc.2], true) else gf
      else gf)
    (g, false)

/-- One full pass of the `while True:` loop body (step 2 of
`synchronize_cues`): the Korean union bounds are computed first, the English
group is expanded, the English union bounds are recomputed from the grown
group, and the Korean group is expanded.  Returns both groups and whether
anything was added. -/
def expandPass (en_cues kr_cues : List Cue) (used : List ℕ)
    (gEn gKr : List Cue) : List Cue × List Cue × Bool :=
  ((expandEn (minStart gKr) (maxEnd gKr) en_cues gEn).1,
   (expandKr (minStart (expandEn (minStart gKr) (maxEnd gKr) en_cues gEn).1)
      (maxEnd (expandEn (minStart gKr) (maxEnd gKr) en_cues gEn).1)
      kr_cues used gKr).1,
   (expandEn (minStart gKr) (maxEnd gKr) en_cues gEn).2 ||
     (expandKr (minStart (expandEn (minStart gKr) (maxEnd gKr) en_cues gEn).1)
        (maxEnd (expandEn (minStart gKr) (maxEnd gKr) en_cues gEn).1)
        kr_cues used gKr).2)

/-- The `while True:` loop, run with explicit fuel (the loop provably
reaches its fixed point within `en_cues.length + kr_cues.length + 1`
passes; see the termination theorem). -/
def expandLoop (en_cues kr_cues : List Cue) (used : List ℕ) :
    ℕ → List Cue → List Cue → List Cue × List Cue
  | 0, gEn, gKr => (gEn, gKr)
  | fuel + 1, gEn, gKr =>
    if (expandPass en_cues kr_cues used gEn gKr).2.2 then
      expandLoop en_cues kr_cues used fuel
        (expandPass en_cues kr_cues used gEn gKr).1
        (expandPass en_cues kr_cues used gEn gKr).2.1
    else ((expandPass en_cues kr_cues used gEn gKr).1,
      (expandPass en_cues kr_cues used gEn gKr).2.1)

/-- The fuel `synchronize_cues` hands to `expandLoop`. -/
def loopFuel (en_cues kr_cues : List Cue) : ℕ :=
  en_cues.length + kr_cues.length + 1

/-- The consumption marking of step 3: for every cue in the final Korean
group, the first index of an equal cue in the original Korean track is added
to `used_kr_indices`. -/
def markUsed (kr_cues : List Cue) (used : List ℕ) (gKr : List Cue) : List ℕ :=
  gKr.foldl
    (fun u c =>
      match kr_cues.findIdx? (fun x => decide (x = c)) with
      | some j => u.insert j
      | none => u)
    used

/-- The mutable state of `synchronize_cues`: the emitted pairs (with their
groups recorded), `used_kr_indices`, and `processed_en_groups`. -/
structure SyncState where
  pairs : List SyncedPairExt
  used_kr : List ℕ
  processed_en_groups : List (List Cue)
deriving DecidableEq, Repr

/-- The body of the `for i, en_cue in enumerate(en_cues)` loop for one seed
cue: skip consumed seeds, scan for initial Korean overlaps (abandoning the
seed if there are none), expand to a fixed point, merge both groups,
re-stamp the Korean cue to the English interval, and record the pair and
the consumption. -/
def stepSeed (en_cues kr_cues : List Cue) (st : SyncState) (en_cue : Cue) : SyncState :=
  if st.processed_en_groups.any (fun g => decide (en_cue ∈ g)) then st
  else if initialKrGroup en_cue kr_cues st.used_kr = [] then st
  else
    match merge_cues_in_group
            (expandLoop en_cues kr_cues st.used_kr (loopFuel en_cues kr_cues) [en_cue]
              (initialKrGroup en_cue kr_cues st.used_kr)).1,
          merge_cues_in_group
            (expandLoop en_cues kr_cues st.used_kr (loopFuel en_cues kr_cues) [en_cue]
              (initialKrGroup en_cue kr_cues st.used_kr)).2 with
    | some merged_en, some merged_kr =>
      { pairs := st.pairs ++
          [{ en_cue := merged_en
             kr_cue := { merged_kr with
                         start_sec := merged_en.start_sec
                         end_sec := merged_en.end_sec }
             group_en := (expandLoop en_cues kr_cues st.used_kr (loopFuel en_cues kr_cues)
               [en_cue] (initialKrGroup en_cue kr_cues st.used_kr)).1
             group_kr := (expandLoop en_cues kr_cues st.used_kr (loopFuel en_cues kr_cues)
               [en_cue] (initialKrGroup en_cue kr_cues st.used_kr)).2 }]
        used_kr := markUsed kr_cues st.used_kr
          (expandLoop en_cues kr_cues st.used_kr (loopFuel en_cues kr_cues) [en_cue]
            (initialKrGroup en_cue kr_cues st.used_kr)).2
        processed_en_groups := st.processed_en_groups ++
          [(expandLoop en_cues kr_cues st.used_kr (loopFuel en_cues kr_cues) [en_cue]
            (initialKrGroup en_cue kr_cues st.used_kr)).1] }
    | _, _ => st

/-- `synchronize_cues` with the per-pair groups recorded, before the final
sort (the pairs appear in emission order). -/
def synchronize_cues_ext (en_cues kr_cues : List Cue) : List SyncedPairExt :=
  (en_cues.foldl (stepSeed en_cues kr_cues) ⟨[], [], []⟩).pairs

/-- `synchronize_cues(en_cues, kr_cues)`: the emitted pairs, stably sorted
by the English cue's `start_sec`. -/
def synchronize_cues (en_cues kr_cues : List Cue) : List SyncedPair :=
  ((synchronize_cues_ext en_cues kr_cues).map
      (fun p => ⟨p.en_cue, p.kr_cue⟩ : SyncedPairExt → SyncedPair)).insertionSort
    (fun a b => a.en_cue.start_sec ≤ b.en_cue.start_sec)

/-! ## Properties claimed of the program -/

/-- Pairwise-distinct start times (the group dicts are keyed by start). -/
def distinctStarts (g : List Cue) : Prop :=
  g.Pairwise (fun a b => a.start_sec ≠ b.start_sec)

instance (g : List Cue) : Decidable (distinctStarts g) :=
  inferInstanceAs (Decidable (List.Pairwise _ _))

/-- Consumption exclusivity: distinct output pairs drew on disjoint sets of
original cues, on each track separately. -/
def ConsumptionExclusive (en kr : List Cue) : Prop :=
  (synchronize_cues_ext en kr).Pairwise (fun p q =>
    (∀ c ∈ p.group_en, c ∉ q.group_en) ∧ (∀ c ∈ p.group_kr, c ∉ q.group_kr))

instance (en kr : List Cue) : Decidable (ConsumptionExclusive en kr) :=
  inferInstanceAs (Decidable (List.Pairwise _ _))

/-- Output deduplication: no two output pairs share the primary side's
`(start, text)`. -/
def NoDupPrimary (en kr : List Cue) : Prop :=
  (synchronize_cues en kr).Pairwise (fun p q =>
    ¬ (p.en_cue.start_sec = q.en_cue.start_sec ∧ p.en_cue.text = q.en_cue.text))

instance (en kr : List Cue) : Decidable (NoDupPrimary en kr) :=
  inferInstanceAs (Decidable (List.Pairwise _ _))

/-! ## Lemmas on the union-interval bounds -/

theorem foldl_min_le_init (cs : List Cue) (i : ℚ) :
    cs.foldl (fun a x => min a x.start_sec) i ≤ i := by
  induction cs generalizing i with
  | nil => exact le_refl i
  | cons c cs ih => exact le_trans (ih (min i c.start_sec)) (min_le_left _ _)

theorem foldl_min_le_mem (cs : List Cue) (i : ℚ) {c : Cue} (h : c ∈ cs) :
    cs.foldl (fun a x => min a x.start_sec) i ≤ c.start_sec := by
  induction cs generalizing i with
  | nil => cases h
  | cons x xs ih =>
    rcases List.mem_cons.1 h with rfl | h
    · exact le_trans (foldl_min_le_init xs _) (min_le_right _ _)
    · exact ih _ h

theorem foldl_min_attained (cs : List Cue) (i : ℚ) :
    cs.foldl (fun a x => min a x.start_sec) i = i ∨
      ∃ c ∈ cs, cs.foldl (fun a x => min a x.start_sec) i = c.start_sec := by
  induction cs generalizing i with
  | nil => exact Or.inl rfl
  | cons x xs ih =>
    rcases ih (min i x.start_sec) with h | ⟨c, hc, h⟩
    · rcases min_cases i x.start_sec with ⟨h', _⟩ | ⟨h', _⟩
      · exact Or.inl (by simpa [h'] using h)
      · exact Or.inr ⟨x, List.mem_cons_self _ _, by simpa [h'] using h⟩
    · exact Or.inr ⟨c, List.mem_cons_of_mem _ hc, h⟩

theorem foldl_max_le_init (cs : List Cue) (i : ℚ) :
    i ≤ cs.foldl (fun a x => max a x.end_sec) i := by
  induction cs generalizing i with
  | nil => exact le_refl i
  | cons c cs ih => exact le_trans (le_max_left _ _) (ih (max i c.end_sec))

theorem foldl_max_le_mem (cs : List Cue) (i : ℚ) {c : Cue} (h : c ∈ cs) :
    c.end_sec ≤ cs.foldl (fun a x => max a x.end_sec) i := by
  induction cs generalizing i with
  | nil => cases h
  | cons x xs ih =>
    rcases List.mem_cons.1 h with rfl | h
    · exact le_trans (le_max_right _ _) (foldl_max_le_init xs _)
    · exact ih _ h

theorem foldl_max_attained (cs : List Cue) (i : ℚ) :
    cs.foldl (fun a x => max a x.end_sec) i = i ∨
      ∃ c ∈ cs, cs.foldl (fun a x => max a x.end_sec) i = c.end_sec := by
  induction cs generalizing i with
  | nil => exact Or.inl rfl
  | cons x xs ih =>
    rcases ih (max i x.end_sec) with h | ⟨c, hc, h⟩
    · rcases max_cases i x.end_sec with ⟨h', _⟩ | ⟨h', _⟩
      · exact Or.inl (by simpa [h'] using h)
      · exact Or.inr ⟨x, List.mem_cons_self _ _, by simpa [h'] using h⟩
    · exact Or.inr ⟨c, List.mem_cons_of_mem _ hc, h⟩

theorem minStart_le_of_mem {g : List Cue} {c : Cue} (h : c ∈ g) :
    minStart g ≤ c.start_sec := by
  cases g with
  | nil => cases h
  | cons x xs =>
    rcases List.mem_cons.1 h with rfl | h
    · exact foldl_min_le_init xs _
    · exact foldl_min_le_mem xs _ h

theorem le_maxEnd_of_mem {g : List Cue} {c : Cue} (h : c ∈ g) :
    c.end_sec ≤ maxEnd g := by
  cases g with
  | nil => cases h
  | cons x xs =>
    rcases List.mem_cons.1 h with rfl | h
    · exact foldl_max_le_init xs _
    · exact foldl_max_le_mem xs _ h

theorem minStart_mem {g : List Cue} (h : g ≠ []) :
    ∃ c ∈ g, c.start_sec = minStart g := by
  cases g with
  | nil => exact absurd rfl h
  | cons x xs =>
    rcases foldl_min_attained xs x.start_sec with h' | ⟨c, hc, h'⟩
    · exact ⟨x, List.mem_cons_self _ _, h'.symm⟩
    · exact ⟨c, List.mem_cons_of_mem _ hc, h'.symm⟩

theorem maxEnd_mem {g : List Cue} (h : g ≠ []) :
    ∃ c ∈ g, c.end_sec = maxEnd g := by
  cases g with
  | nil => exact absurd rfl h
  | cons x xs =>
    rcases foldl_max_attained xs x.end_sec with h' | ⟨c, hc, h'⟩
    · exact ⟨x, List.mem_cons_self _ _, h'.symm⟩
    · exact ⟨c, List.mem_cons_of_mem _ hc, h'.symm⟩

/-! ## The merge (claims C4 and C6) -/

theorem sorted_startLE (l : List Cue) :
    (l.insertionSort (fun a b => a.start_sec ≤ b.start_sec)).Pairwise
      (fun a b => a.start_sec ≤ b.start_sec) := by
  haveI : IsTotal Cue (fun a b => a.start_sec ≤ b.start_sec) :=
    ⟨fun c d => le_total c.start_sec d.start_sec⟩
  haveI : IsTrans Cue (fun a b => a.start_sec ≤ b.start_sec) :=
    ⟨fun _ _ _ h h' => le_trans h h'⟩
  exact List.sorted_insertionSort _ l

/-- C6: the merged cue of a non-empty group starts at the minimum member
start, ends at the maximum member end (hence its interval contains every
member's interval), and its text is the members' texts in ascending-start
order joined by a line break. -/
theorem c6_merge_postcondition (group : List Cue) (h : group ≠ []) :
    ∃ m, merge_cues_in_group group = some m ∧
      (∀ c ∈ group, m.start_sec ≤ c.start_sec ∧ c.end_sec ≤ m.end_sec) ∧
      (∃ c ∈ group, c.start_sec = m.start_sec) ∧
      (∃ c ∈ group, c.end_sec = m.end_sec) ∧
      ∃ s : List Cue, s.Perm group ∧
        s.Pairwise (fun a b => a.start_sec ≤ b.start_sec) ∧
        m.text = String.intercalate "\n" (s.map Cue.text) := by
  cases group with
  | nil => exact absurd rfl h
  | cons x xs =>
    refine ⟨_, rfl, ?_, ?_, ?_, ?_⟩
    · exact fun c hc => ⟨minStart_le_of_mem hc, le_maxEnd_of_mem hc⟩
    · simpa using minStart_mem (g := x :: xs) (by simp)
    · simpa using maxEnd_mem (g := x :: xs) (by simp)
    · exact ⟨(x :: xs).insertionSort (fun a b => a.start_sec ≤ b.start_sec),
        List.perm_insertionSort _ _, sorted_startLE _, rfl⟩

/-- C6 witness. -/
theorem c6_merge_postcondition_witness :
    (⟨0, 1, "a"⟩ : Cue) :: [⟨(1 : ℚ) / 2, 2, "b"⟩] ≠ [] ∧
      ∃ m, merge_cues_in_group ((⟨0, 1, "a"⟩ : Cue) :: [⟨(1 : ℚ) / 2, 2, "b"⟩]) = some m ∧
        (∀ c ∈ (⟨0, 1, "a"⟩ : Cue) :: [⟨(1 : ℚ) / 2, 2, "b"⟩],
          m.start_sec ≤ c.start_sec ∧ c.end_sec ≤ m.end_sec) ∧
        (∃ c ∈ (⟨0, 1, "a"⟩ : Cue) :: [⟨(1 : ℚ) / 2, 2, "b"⟩], c.start_sec = m.start_sec) ∧
        (∃ c ∈ (⟨0, 1, "a"⟩ : Cue) :: [⟨(1 : ℚ) / 2, 2, "b"⟩], c.end_sec = m.end_sec) ∧
        ∃ s : List Cue, s.Perm ((⟨0, 1, "a"⟩ : Cue) :: [⟨(1 : ℚ) / 2, 2, "b"⟩]) ∧
          s.Pairwise (fun a b => a.start_sec ≤ b.start_sec) ∧
          m.text = String.intercalate "\n" (s.map Cue.text) :=
  ⟨by decide, c6_merge_postcondition _ (by decide)⟩

/-- C4 counterexample: merging the same two-cue collection in the two
possible orders yields different texts (the two cues share a start time, so
the stable sort keeps the presentation order). -/
theorem c4_order_dependence_counterexample :
    merge_cues_in_group [⟨0, 1, "a"⟩, ⟨0, 1, "b"⟩] ≠
      merge_cues_in_group [⟨0, 1, "b"⟩, ⟨0, 1, "a"⟩] := by
  decide

theorem minStart_eq_of_perm {l l' : List Cue} (hp : l.Perm l') :
    minStart l = minStart l' := by
  cases l with
  | nil => rw [hp.nil_eq]
  | cons x xs =>
    have h' : l' ≠ [] := by
      intro h0
      exact absurd ((h0 ▸ hp).eq_nil) (by simp)
    obtain ⟨c, hc, hce⟩ := minStart_mem (g := x :: xs) (by simp)
    obtain ⟨c', hc', hce'⟩ := minStart_mem h'
    exact le_antisymm (hce' ▸ minStart_le_of_mem (hp.symm.subset hc'))
      (hce ▸ minStart_le_of_mem (hp.subset hc))

theorem maxEnd_eq_of_perm {l l' : List Cue} (hp : l.Perm l') :
    maxEnd l = maxEnd l' := by
  cases l with
  | nil => rw [hp.nil_eq]
  | cons x xs =>
    have h' : l' ≠ [] := by
      intro h0
      exact absurd ((h0 ▸ hp).eq_nil) (by simp)
    obtain ⟨c, hc, hce⟩ := maxEnd_mem (g := x :: xs) (by simp)
    obtain ⟨c', hc', hce'⟩ := maxEnd_mem h'
    exact le_antisymm (hce ▸ le_maxEnd_of_mem (hp.subset hc))
      (hce' ▸ le_maxEnd_of_mem (hp.symm.subset hc'))

theorem insertionSort_eq_of_perm {l l' : List Cue} (hp : l.Perm l')
    (hd : l.Pairwise (fun a b => a.start_sec ≠ b.start_sec)) :
    l.insertionSort (fun a b => a.start_sec ≤ b.start_sec) =
      l'.insertionSort (fun a b => a.start_sec ≤ b.start_sec) := by
  haveI : IsAntisymm Cue (fun a b => a.start_sec < b.start_sec) :=
    ⟨fun a b h h' => absurd h' (lt_asymm h)⟩
  have hps : (l.insertionSort (fun a b => a.start_sec ≤ b.start_sec)).Perm
      (l'.insertionSort (fun a b => a.start_sec ≤ b.start_sec)) :=
    ((List.perm_insertionSort _ l).trans hp).trans (List.perm_insertionSort _ l').symm
  have hd1 : (l.insertionSort (fun a b => a.start_sec ≤ b.start_sec)).Pairwise
      (fun a b => a.start_sec ≠ b.start_sec) :=
    ((List.perm_insertionSort _ l).pairwise_iff (fun h => Ne.symm h)).2 hd
  have hd2 : (l'.insertionSort (fun a b => a.start_sec ≤ b.start_sec)).Pairwise
      (fun a b => a.start_sec ≠ b.start_sec) :=
    (hps.symm.pairwise_iff (fun h => Ne.symm h)).2 hd1
  refine List.eq_of_perm_of_sorted (r := fun a b : Cue => a.start_sec < b.start_sec) hps ?_ ?_
  · exact List.Pairwise.imp₂ (fun a b h h' => lt_of_le_of_ne h h') (sorted_startLE l) hd1
  · exact List.Pairwise.imp₂ (fun a b h h' => lt_of_le_of_ne h h') (sorted_startLE l') hd2

/-- C4 amended: the merged cue is order-independent provided the member
start times are pairwise distinct; with tied start times the stable sort
keeps presentation order, so the merged text depends on the input order. -/
theorem c4_merge_order_independent (l l' : List Cue) (hp : l.Perm l')
    (hd : l.Pairwise (fun a b => a.start_sec ≠ b.start_sec)) :
    merge_cues_in_group l = merge_cues_in_group l' := by
  cases l with
  | nil => rw [hp.nil_eq]
  | cons x xs =>
    cases l' with
    | nil => exact absurd hp.symm.nil_eq (by simp)
    | cons y ys =>
      show some _ = some _
      rw [minStart_eq_of_perm hp, maxEnd_eq_of_perm hp, insertionSort_eq_of_perm hp hd]

/-! ## Infrastructure: the step function and its invariants -/

/-- Case analysis on one seed step: it either leaves the state unchanged or
appends exactly one pair built from the fixed point of the expansion. -/
theorem stepSeed_eq_or (en kr : List Cue) (st : SyncState) (c : Cue) :
    stepSeed en kr st c = st ∨
    ∃ mEn mKr : Cue,
      (st.processed_en_groups.any (fun g => decide (c ∈ g))) = false ∧
      initialKrGroup c kr st.used_kr ≠ [] ∧
      merge_cues_in_group
        (expandLoop en kr st.used_kr (loopFuel en kr) [c]
          (initialKrGroup c kr st.used_kr)).1 = some mEn ∧
      merge_cues_in_group
        (expandLoop en kr st.used_kr (loopFuel en kr) [c]
          (initialKrGroup c kr st.used_kr)).2 = some mKr ∧
      stepSeed en kr st c =
        ⟨st.pairs ++ [⟨mEn, ⟨mEn.start_sec, mEn.end_sec, mKr.text⟩,
            (expandLoop en kr st.used_kr (loopFuel en kr) [c]
              (initialKrGroup c kr st.used_kr)).1,
            (expandLoop en kr st.used_kr (loopFuel en kr) [c]
              (initialKrGroup c kr st.used_kr)).2⟩],
          markUsed kr st.used_kr
            (expandLoop en kr st.used_kr (loopFuel en kr) [c]
              (initialKrGroup c kr st.used_kr)).2,
          st.processed_en_groups ++
            [(expandLoop en kr st.used_kr (loopFuel en kr) [c]
              (initialKrGroup c kr st.used_kr)).1]⟩ := by
  unfold stepSeed
  split
  · exact Or.inl rfl
  · next hskip =>
    split
    · exact Or.inl rfl
    · next hne =>
      split
      · next mEn mKr hEn hKr =>
        exact Or.inr ⟨mEn, mKr, Bool.of_not_eq_true hskip, hne, hEn, hKr, rfl⟩
      · exact Or.inl rfl

/-- Fold invariant: a predicate that holds of every appended pair holds of
every pair produced by the seed loop. -/
theorem pairs_pred_foldl (en kr : List Cue) (P : SyncedPairExt → Prop)
    (hP : ∀ (st : SyncState) (c mEn mKr : Cue),
      initialKrGroup c kr st.used_kr ≠ [] →
      merge_cues_in_group
        (expandLoop en kr st.used_kr (loopFuel en kr) [c]
          (initialKrGroup c kr st.used_kr)).1 = some mEn →
      merge_cues_in_group
        (expandLoop en kr st.used_kr (loopFuel en kr) [c]
          (initialKrGroup c kr st.used_kr)).2 = some mKr →
      P ⟨mEn, ⟨mEn.start_sec, mEn.end_sec, mKr.text⟩,
        (expandLoop en kr st.used_kr (loopFuel en kr) [c]
          (initialKrGroup c kr st.used_kr)).1,
        (expandLoop en kr st.used_kr (loopFuel en kr) [c]
          (initialKrGroup c kr st.used_kr)).2⟩) :
    ∀ (seeds : List Cue) (st0 : SyncState), (∀ p ∈ st0.pairs, P p) →
      ∀ p ∈ (seeds.foldl (stepSeed en kr) st0).pairs, P p := by
  intro seeds
  induction seeds with
  | nil => exact fun st0 h0 => h0
  | cons c cs ih =>
    intro st0 h0
    refine ih _ ?_
    rcases stepSeed_eq_or en kr st0 c with h | ⟨mEn, mKr, _, hne, hEn, hKr, heq⟩
    · rw [h]; exact h0
    · rw [heq]
      intro p hp
      rcases List.mem_append.1 hp with h | h
      · exact h0 p h
      · rw [List.mem_singleton.1 h]
        exact hP st0 c mEn mKr hne hEn hKr

/-- Fold invariant specialised to the whole run. -/
theorem pairs_pred_ext (en kr : List Cue) (P : SyncedPairExt → Prop)
    (hP : ∀ (st : SyncState) (c mEn mKr : Cue),
      initialKrGroup c kr st.used_kr ≠ [] →
      merge_cues_in_group
        (expandLoop en kr st.used_kr (loopFuel en kr) [c]
          (initialKrGroup c kr st.used_kr)).1 = some mEn →
      merge_cues_in_group
        (expandLoop en kr st.used_kr (loopFuel en kr) [c]
          (initialKrGroup c kr st.used_kr)).2 = some mKr →
      P ⟨mEn, ⟨mEn.start_sec, mEn.end_sec, mKr.text⟩,
        (expandLoop en kr st.used_kr (loopFuel en kr) [c]
          (initialKrGroup c kr st.used_kr)).1,
        (expandLoop en kr st.used_kr (loopFuel en kr) [c]
          (initialKrGroup c kr st.used_kr)).2⟩) :
    ∀ p ∈ synchronize_cues_ext en kr, P p := by
  exact pairs_pred_foldl en kr P hP en ⟨[], [], []⟩ (by intro p hp; cases hp)

/-- C4 amended witness. -/
theorem c4_merge_order_independent_witness :
    ([⟨0, 1, "a"⟩, ⟨2, 3, "b"⟩] : List Cue).Perm [⟨2, 3, "b"⟩, ⟨0, 1, "a"⟩] ∧
      ([⟨0, 1, "a"⟩, ⟨2, 3, "b"⟩] : List Cue).Pairwise
        (fun a b => a.start_sec ≠ b.start_sec) ∧
      merge_cues_in_group [⟨0, 1, "a"⟩, ⟨2, 3, "b"⟩] =
        merge_cues_in_group [⟨2, 3, "b"⟩, ⟨0, 1, "a"⟩] :=
  ⟨List.Perm.swap _ _ _, by decide,
    c4_merge_order_independent _ _ (List.Perm.swap _ _ _) (by decide)⟩

/-! ## Claim C10: empty input -/

theorem stepSeed_kr_nil (en : List Cue) (st : SyncState) (c : Cue) :
    stepSeed en [] st c = st := by
  unfold stepSeed
  split
  · rfl
  · exact if_pos rfl

/-- C10: if either track is empty, synchronization returns the empty
sequence (and, being a total function, raises nothing). -/
theorem c10_empty_input (en kr : List Cue) (h : en = [] ∨ kr = []) :
    synchronize_cues en kr = [] := by
  rcases h with rfl | rfl
  · rfl
  · have hfold : ∀ (seeds : List Cue) (st0 : SyncState),
        seeds.foldl (stepSeed en []) st0 = st0 := by
      intro seeds
      induction seeds with
      | nil => intro st0; rfl
      | cons c cs ih =>
        intro st0
        rw [List.foldl_cons, stepSeed_kr_nil en st0 c]
        exact ih st0
    have hst : en.foldl (stepSeed en []) ⟨[], [], []⟩ = ⟨[], [], []⟩ := hfold en _
    unfold synchronize_cues synchronize_cues_ext
    rw [hst]
    rfl

/-- C10 witness. -/
theorem c10_empty_input_witness :
    (([] : List Cue) = [] ∨ ([⟨0, 1, "g"⟩] : List Cue) = []) ∧
      synchronize_cues [] [⟨0, 1, "g"⟩] = [] :=
  ⟨Or.inl rfl, c10_empty_input [] [⟨0, 1, "g"⟩] (Or.inl rfl)⟩

/-! ## Claim C8: timestamp alignment -/

/-- C8: in every output pair the secondary cue is re-stamped to the primary
cue's interval: equal starts and equal ends. -/
theorem c8_timestamp_alignment (en kr : List Cue) :
    ∀ p ∈ synchronize_cues en kr,
      p.kr_cue.start_sec = p.en_cue.start_sec ∧
        p.kr_cue.end_sec = p.en_cue.end_sec := by
  intro p hp
  have hp' : p ∈ (synchronize_cues_ext en kr).map
      (fun q => (⟨q.en_cue, q.kr_cue⟩ : SyncedPair)) :=
    (List.perm_insertionSort _ _).subset hp
  rcases List.mem_map.1 hp' with ⟨q, hq, rfl⟩
  have hq' := pairs_pred_ext en kr
    (fun q => q.kr_cue.start_sec = q.en_cue.start_sec ∧
      q.kr_cue.end_sec = q.en_cue.end_sec)
    (fun _ _ _ _ _ _ _ => ⟨rfl, rfl⟩) q hq
  exact hq'

/-- C8 witness. -/
theorem c8_timestamp_alignment_witness :
    (⟨⟨0, 1, "A"⟩, ⟨0, 1, "g"⟩⟩ : SyncedPair) ∈
        synchronize_cues [⟨0, 1, "A"⟩] [⟨0, 3, "g"⟩] ∧
      ((⟨⟨0, 1, "A"⟩, ⟨0, 1, "g"⟩⟩ : SyncedPair).kr_cue.start_sec =
          (⟨⟨0, 1, "A"⟩, ⟨0, 1, "g"⟩⟩ : SyncedPair).en_cue.start_sec ∧
        (⟨⟨0, 1, "A"⟩, ⟨0, 1, "g"⟩⟩ : SyncedPair).kr_cue.end_sec =
          (⟨⟨0, 1, "A"⟩, ⟨0, 1, "g"⟩⟩ : SyncedPair).en_cue.end_sec) :=
  ⟨by decide, c8_timestamp_alignment [⟨0, 1, "A"⟩] [⟨0, 3, "g"⟩] _ (by decide)⟩

/-! ## Claim C9: output ordering -/

/-- C9: the output sequence is sorted non-decreasing by the pairs' start
times, for every input (including out-of-order input). -/
theorem c9_output_sorted (en kr : List Cue) :
    (synchronize_cues en kr).Pairwise
      (fun p q => p.en_cue.start_sec ≤ q.en_cue.start_sec) := by
  haveI : IsTotal SyncedPair (fun p q => p.en_cue.start_sec ≤ q.en_cue.start_sec) :=
    ⟨fun p q => le_total p.en_cue.start_sec q.en_cue.start_sec⟩
  haveI : IsTrans SyncedPair (fun p q => p.en_cue.start_sec ≤ q.en_cue.start_sec) :=
    ⟨fun _ _ _ h h' => le_trans h h'⟩
  exact List.sorted_insertionSort _ _

/-! ## Claim C2: no deduplication happens -/

/-- C2 counterexample: two output pairs share the primary `(start, text)`;
the second pair is appended, not discarded. -/
theorem c2_dedup_counterexample :
    ¬ NoDupPrimary [⟨0, 2, "X"⟩, ⟨0, 3, "X"⟩] [⟨0, 2, "k"⟩, ⟨2, 3, "m"⟩] := by
  decide

/-- C2 amended: the code performs no deduplication at all — every pair
constructed during the run appears in the final output, even when an
earlier pair has an identical primary `(start, text)`. -/
theorem c2_no_discard (en kr : List Cue) :
    ∀ p ∈ synchronize_cues_ext en kr,
      (⟨p.en_cue, p.kr_cue⟩ : SyncedPair) ∈ synchronize_cues en kr := by
  intro p hp
  exact (List.perm_insertionSort _ _).symm.subset (List.mem_map_of_mem _ hp)

/-- C2 amended witness. -/
theorem c2_no_discard_witness :
    ∃ p ∈ synchronize_cues_ext [⟨0, 2, "X"⟩, ⟨0, 3, "X"⟩] [⟨0, 2, "k"⟩, ⟨2, 3, "m"⟩],
      (⟨p.en_cue, p.kr_cue⟩ : SyncedPair) ∈
        synchronize_cues [⟨0, 2, "X"⟩, ⟨0, 3, "X"⟩] [⟨0, 2, "k"⟩, ⟨2, 3, "m"⟩] := by
  refine ⟨⟨⟨0, 2, "X"⟩, ⟨0, 2, "k"⟩, [⟨0, 2, "X"⟩], [⟨0, 2, "k"⟩]⟩, by decide, ?_⟩
  exact c2_no_discard [⟨0, 2, "X"⟩, ⟨0, 3, "X"⟩] [⟨0, 2, "k"⟩, ⟨2, 3, "m"⟩] _ (by decide)

/-! ## Claim C3: a no-match seed is dropped but can be reclaimed -/

/-- C3 counterexample: the first primary cue overlaps no secondary cue at
its seed step (its initial scan is empty), yet it contributes to the pair
produced by the second seed, pulled in by the union-interval expansion. -/
theorem c3_no_match_counterexample :
    initialKrGroup ⟨5, 6, "D"⟩ [⟨0, 5, "u"⟩, ⟨6, 10, "v"⟩] [] = [] ∧
      ∃ p ∈ synchronize_cues_ext [⟨5, 6, "D"⟩, ⟨0, 10, "A"⟩]
          [⟨0, 5, "u"⟩, ⟨6, 10, "v"⟩],
        (⟨5, 6, "D"⟩ : Cue) ∈ p.group_en := by
  decide

/-- C3 amended: a seed whose initial scan finds no unconsumed overlapping
secondary cue emits no pair and leaves the state unchanged (in particular
it is not marked consumed); it may, however, be absorbed into a later
seed's group by the expansion. -/
theorem c3_no_match_unchanged (en kr : List Cue) (st : SyncState) (c : Cue)
    (h : initialKrGroup c kr st.used_kr = []) :
    stepSeed en kr st c = st := by
  unfold stepSeed
  rw [if_pos h]
  split <;> rfl

/-- C3 amended witness. -/
theorem c3_no_match_unchanged_witness :
    initialKrGroup ⟨5, 6, "D"⟩ [⟨0, 5, "u"⟩]
        (⟨[], [], []⟩ : SyncState).used_kr = [] ∧
      stepSeed [⟨5, 6, "D"⟩] [⟨0, 5, "u"⟩] ⟨[], [], []⟩ ⟨5, 6, "D"⟩ =
        (⟨[], [], []⟩ : SyncState) :=
  ⟨by decide, c3_no_match_unchanged _ _ _ _ (by decide)⟩

/-! ## Counterexamples to C1 and C5 as stated -/

/-- C1 counterexample: two Korean cues share a start time; the seed scan
overwrites one with the other in the start-keyed dict, so the overwritten
cue is never marked consumed, and the English expansion (which checks no
consumption) later re-absorbs the already-consumed English cue `A` into a
second group: `A` contributes to both output pairs. -/
theorem c1_consumption_counterexample :
    ¬ ConsumptionExclusive [⟨10, 12, "A"⟩, ⟨12, 14, "C"⟩]
        [⟨10, 20, "ka"⟩, ⟨10, 12, "kb"⟩] := by
  decide

/-- C5 counterexample: two primary cues with the same start time can both
end up in groups — membership keyed by start only excludes the second cue
from the *same* group, not from all future groups. -/
theorem c5_same_start_counterexample :
    (⟨0, 2, "P"⟩ : Cue).start_sec = (⟨0, 3, "Q"⟩ : Cue).start_sec ∧
      (⟨0, 2, "P"⟩ : Cue) ≠ (⟨0, 3, "Q"⟩ : Cue) ∧
      (∃ p ∈ synchronize_cues_ext [⟨0, 2, "P"⟩, ⟨0, 3, "Q"⟩]
          [⟨0, 2, "u"⟩, ⟨2, 3, "v"⟩], (⟨0, 2, "P"⟩ : Cue) ∈ p.group_en) ∧
      ∃ p ∈ synchronize_cues_ext [⟨0, 2, "P"⟩, ⟨0, 3, "Q"⟩]
          [⟨0, 2, "u"⟩, ⟨2, 3, "v"⟩], (⟨0, 3, "Q"⟩ : Cue) ∈ p.group_en := by
  decide

/-! ## Distinct start keys inside every group (claim C5) -/

theorem mem_dictInsert {g : List Cue} {c x : Cue} (h : x ∈ dictInsert g c) :
    x = c ∨ x ∈ g := by
  induction g with
  | nil =>
    rw [dictInsert] at h
    exact Or.inl (List.mem_singleton.1 h)
  | cons y ys ih =>
    rw [dictInsert] at h
    split at h
    · rcases List.mem_cons.1 h with rfl | h
      · exact Or.inl rfl
      · exact Or.inr (List.mem_cons_of_mem _ h)
    · rcases List.mem_cons.1 h with rfl | h
      · exact Or.inr (List.mem_cons_self _ _)
      · rcases ih h with h' | h'
        · exact Or.inl h'
        · exact Or.inr (List.mem_cons_of_mem _ h')

theorem distinctStarts_dictInsert {g : List Cue} {c : Cue} (h : distinctStarts g) :
    distinctStarts (dictInsert g c) := by
  induction g with
  | nil =>
    rw [dictInsert, distinctStarts]
    exact List.pairwise_singleton _ _
  | cons y ys ih =>
    rw [distinctStarts, List.pairwise_cons] at h
    obtain ⟨hy, hys⟩ := h
    rw [dictInsert]
    split
    · next heq =>
      rw [distinctStarts, List.pairwise_cons]
      exact ⟨fun b hb => heq ▸ hy b hb, hys⟩
    · next hne =>
      rw [distinctStarts, List.pairwise_cons]
      refine ⟨?_, ih hys⟩
      intro b hb
      rcases mem_dictInsert hb with rfl | hb'
      · exact hne
      · exact hy b hb'

theorem distinctStarts_append_of_not_hasStart {g : List Cue} {c : Cue}
    (h : distinctStarts g) (hn : ¬ hasStart g c.start_sec) :
    distinctStarts (g ++ [c]) := by
  rw [distinctStarts, List.pairwise_append]
  refine ⟨h, List.pairwise_singleton _ _, ?_⟩
  intro a ha b hb
  rw [List.mem_singleton] at hb
  subst hb
  exact fun he => hn ⟨a, ha, he⟩

theorem initialKrGroup_distinct (c : Cue) (kr : List Cue) (used : List ℕ) :
    distinctStarts (initialKrGroup c kr used) := by
  rw [initialKrGroup]
  suffices H : ∀ (l : List (ℕ × Cue)) (acc : List Cue), distinctStarts acc →
      distinctStarts (l.foldl (fun g jc =>
        if jc.1 ∈ used then g
        else if cueOverlap c jc.2 then dictInsert g jc.2
        else g) acc) by
    exact H kr.enum [] (by rw [distinctStarts]; exact List.Pairwise.nil)
  intro l
  induction l with
  | nil => exact fun acc h => h
  | cons jc rest ih =>
    intro acc hacc
    rw [List.foldl_cons]
    apply ih
    split
    · exact hacc
    · split
      · exact distinctStarts_dictInsert hacc
      · exact hacc

theorem expandEn_distinct (krS krE : ℚ) (en : List Cue) {g : List Cue}
    (h : distinctStarts g) : distinctStarts (expandEn krS krE en g).1 := by
  rw [expandEn]
  suffices H : ∀ (l : List Cue) (acc : List Cue × Bool), distinctStarts acc.1 →
      distinctStarts ((l.foldl (fun gf c =>
        if hasStart gf.1 c.start_sec then gf
        else if ivOverlap krS krE c then (gf.1 ++ [c], true)
        else gf) acc).1) by
    exact H en (g, false) h
  intro l
  induction l with
  | nil => exact fun acc h => h
  | cons c cs ih =>
    intro acc hacc
    rw [List.foldl_cons]
    apply ih
    split
    · exact hacc
    · next hns =>
      split
      · exact distinctStarts_append_of_not_hasStart hacc hns
      · exact hacc

theorem expandKr_distinct (enS enE : ℚ) (kr : List Cue) (used : List ℕ)
    {g : List Cue} (h : distinctStarts g) :
    distinctStarts (expandKr enS enE kr used g).1 := by
  rw [expandKr]
  suffices H : ∀ (l : List (ℕ × Cue)) (acc : List Cue × Bool), distinctStarts acc.1 →
      distinctStarts ((l.foldl (fun gf jc =>
        if jc.1 ∉ used ∧ ¬ hasStart gf.1 jc.2.start_sec then
          if ivOverlap enS enE jc.2 then (gf.1 ++ [jc.2], true) else gf
        else gf) acc).1) by
    exact H kr.enum (g, false) h
  intro l
  induction l with
  | nil => exact fun acc h => h
  | cons jc rest ih =>
    intro acc hacc
    rw [List.foldl_cons]
    apply ih
    split
    · next hguard =>
      split
      · exact distinctStarts_append_of_not_hasStart hacc hguard.2
      · exact hacc
    · exact hacc

theorem expandPass_distinct (en kr : List Cue) (used : List ℕ)
    {gEn gKr : List Cue} (hEn : distinctStarts gEn) (hKr : distinctStarts gKr) :
    distinctStarts (expandPass en kr used gEn gKr).1 ∧
      distinctStarts (expandPass en kr used gEn gKr).2.1 :=
  ⟨expandEn_distinct _ _ en hEn, expandKr_distinct _ _ kr used hKr⟩

theorem expandLoop_distinct (en kr : List Cue) (used : List ℕ) (fuel : ℕ) :
    ∀ {gEn gKr : List Cue}, distinctStarts gEn → distinctStarts gKr →
      distinctStarts (expandLoop en kr used fuel gEn gKr).1 ∧
        distinctStarts (expandLoop en kr used fuel gEn gKr).2 := by
  induction fuel with
  | zero => exact fun hEn hKr => ⟨hEn, hKr⟩
  | succ fuel ih =>
    intro gEn gKr hEn hKr
    obtain ⟨h1, h2⟩ := expandPass_distinct en kr used hEn hKr
    rw [expandLoop]
    split
    · exact ih h1 h2
    · exact ⟨h1, h2⟩

/-- C5 amended: every group formed on either track has pairwise-distinct
member start times (membership is keyed by exact start), so two distinct
same-track cues sharing a start time never both belong to the *same* group
and the excluded one's text is not merged into that group's cue; the
excluded cue may, however, still join a *different* group later. -/
theorem c5_group_start_keyed (en kr : List Cue) :
    ∀ p ∈ synchronize_cues_ext en kr,
      distinctStarts p.group_en ∧ distinctStarts p.group_kr ∧
      (∀ c1 ∈ p.group_en, ∀ c2 ∈ p.group_en, c1 ≠ c2 →
        c1.start_sec ≠ c2.start_sec) ∧
      (∀ c1 ∈ p.group_kr, ∀ c2 ∈ p.group_kr, c1 ≠ c2 →
        c1.start_sec ≠ c2.start_sec) := by
  have key := pairs_pred_ext en kr
    (fun p => distinctStarts p.group_en ∧ distinctStarts p.group_kr) ?_
  · intro p hp
    obtain ⟨h1, h2⟩ := key p hp
    have hsymm : Symmetric fun a b : Cue => a.start_sec ≠ b.start_sec :=
      fun _ _ h => Ne.symm h
    refine ⟨h1, h2, ?_, ?_⟩
    · intro c1 hc1 c2 hc2 hne
      exact h1.forall hsymm hc1 hc2 hne
    · intro c1 hc1 c2 hc2 hne
      exact h2.forall hsymm hc1 hc2 hne
  · intro st c mEn mKr _ _ _
    have h0 : distinctStarts [c] := by
      rw [distinctStarts]; exact List.pairwise_singleton _ _
    exact expandLoop_distinct en kr st.used_kr (loopFuel en kr) h0
      (initialKrGroup_distinct c kr st.used_kr)

/-- C5 amended witness. -/
theorem c5_group_start_keyed_witness :
    ∃ p ∈ synchronize_cues_ext [⟨0, 2, "P"⟩] [⟨0, 2, "u"⟩],
      distinctStarts p.group_en ∧ distinctStarts p.group_kr ∧
      (∀ c1 ∈ p.group_en, ∀ c2 ∈ p.group_en, c1 ≠ c2 →
        c1.start_sec ≠ c2.start_sec) ∧
      (∀ c1 ∈ p.group_kr, ∀ c2 ∈ p.group_kr, c1 ≠ c2 →
        c1.start_sec ≠ c2.start_sec) := by
  refine ⟨⟨⟨0, 2, "P"⟩, ⟨0, 2, "u"⟩, [⟨0, 2, "P"⟩], [⟨0, 2, "u"⟩]⟩, by decide, ?_⟩
  exact c5_group_start_keyed [⟨0, 2, "P"⟩] [⟨0, 2, "u"⟩] _ (by decide)

/-! ## Claim C7: the expansion loop reaches its fixed point -/

/-- Both expansion scans only ever append elements (setting the flag), so a
fold of either scan grows monotonically, leaves everything unchanged when
its flag is `false`, grows strictly when the flag turns `true`, and adds
only elements satisfying the scan's source predicate. -/
theorem foldl_grow_spec {α : Type} (step : List Cue × Bool → α → List Cue × Bool)
    (P : Cue → Prop) :
    ∀ l : List α,
      (∀ (acc : List Cue × Bool), ∀ x ∈ l,
        step acc x = acc ∨ ∃ c, P c ∧ step acc x = (acc.1 ++ [c], true)) →
      ∀ acc : List Cue × Bool,
        acc.1.length ≤ (l.foldl step acc).1.length ∧
        ((l.foldl step acc).2 = false → l.foldl step acc = acc) ∧
        (acc.2 = false → (l.foldl step acc).2 = true →
          acc.1.length < (l.foldl step acc).1.length) ∧
        (∀ y ∈ (l.foldl step acc).1, y ∈ acc.1 ∨ P y) := by
  intro l
  induction l with
  | nil =>
    intro _ acc
    refine ⟨le_refl _, fun _ => rfl, fun hf ht => ?_, fun y hy => Or.inl hy⟩
    rw [List.foldl_nil, hf] at ht
    cases ht
  | cons x xs ih =>
    intro hstep acc
    rw [List.foldl_cons]
    rcases hstep acc x (List.mem_cons_self _ _) with he | ⟨c, hPc, he⟩
    · rw [he]
      exact ih (fun acc' x' hx' => hstep acc' x' (List.mem_cons_of_mem _ hx')) acc
    · rw [he]
      obtain ⟨ihA, ihB, ihC, ihD⟩ :=
        ih (fun acc' x' hx' => hstep acc' x' (List.mem_cons_of_mem _ hx'))
          (acc.1 ++ [c], true)
      refine ⟨?_, ?_, ?_, ?_⟩
      · exact le_trans (by simp) ihA
      · intro hflag
        rw [ihB hflag] at hflag
        cases hflag
      · intro _ _
        exact lt_of_lt_of_le (by simp) ihA
      · intro y hy
        rcases ihD y hy with h | h
        · rcases List.mem_append.1 h with h' | h'
          · exact Or.inl h'
          · rw [List.mem_singleton.1 h']
            exact Or.inr hPc
        · exact Or.inr h

theorem expandEn_spec (krS krE : ℚ) (en g : List Cue) :
    g.length ≤ (expandEn krS krE en g).1.length ∧
    ((expandEn krS krE en g).2 = false → (expandEn krS krE en g).1 = g) ∧
    ((expandEn krS krE en g).2 = true →
      g.length < (expandEn krS krE en g).1.length) ∧
    (∀ y ∈ (expandEn krS krE en g).1, y ∈ g ∨ y ∈ en) := by
  have H := foldl_grow_spec
    (fun gf c =>
      if hasStart gf.1 c.start_sec then gf
      else if ivOverlap krS krE c then (gf.1 ++ [c], true)
      else gf)
    (fun c => c ∈ en) en ?_ (g, false)
  · obtain ⟨hA, hB, hC, hD⟩ := H
    exact ⟨hA, fun h => congrArg Prod.fst (hB h), hC rfl, hD⟩
  · intro acc x hx
    dsimp only
    by_cases h1 : hasStart acc.1 x.start_sec
    · left; rw [if_pos h1]
    · by_cases h2 : ivOverlap krS krE x
      · right
        exact ⟨x, hx, by rw [if_neg h1, if_pos h2]⟩
      · left; rw [if_neg h1, if_neg h2]

theorem expandKr_spec (enS enE : ℚ) (kr : List Cue) (used : List ℕ) (g : List Cue) :
    g.length ≤ (expandKr enS enE kr used g).1.length ∧
    ((expandKr enS enE kr used g).2 = false → (expandKr enS enE kr used g).1 = g) ∧
    ((expandKr enS enE kr used g).2 = true →
      g.length < (expandKr enS enE kr used g).1.length) ∧
    (∀ y ∈ (expandKr enS enE kr used g).1, y ∈ g ∨ y ∈ kr) := by
  have H := foldl_grow_spec
    (fun gf jc =>
      if jc.1 ∉ used ∧ ¬ hasStart gf.1 jc.2.start_sec then
        if ivOverlap enS enE jc.2 then (gf.1 ++ [jc.2], true) else gf
      else gf)
    (fun c => c ∈ kr) kr.enum ?_ (g, false)
  · obtain ⟨hA, hB, hC, hD⟩ := H
    exact ⟨hA, fun h => congrArg Prod.fst (hB h), hC rfl, hD⟩
  · intro acc jc hjc
    dsimp only
    by_cases h1 : jc.1 ∉ used ∧ ¬ hasStart acc.1 jc.2.start_sec
    · by_cases h2 : ivOverlap enS enE jc.2
      · right
        refine ⟨jc.2, ?_, by rw [if_pos h1, if_pos h2]⟩
        exact List.getElem?_mem (List.mem_enum_iff_getElem?.1 hjc)
      · left; rw [if_pos h1, if_neg h2]
    · left; rw [if_neg h1]

theorem expandPass_false_unchanged {en kr : List Cue} {used : List ℕ}
    {gEn gKr : List Cue} (h : (expandPass en kr used gEn gKr).2.2 = false) :
    (expandPass en kr used gEn gKr).1 = gEn ∧
      (expandPass en kr used gEn gKr).2.1 = gKr := by
  rcases Bool.or_eq_false_iff.1 h with ⟨h1, h2⟩
  exact ⟨(expandEn_spec _ _ en gEn).2.1 h1, (expandKr_spec _ _ kr used gKr).2.1 h2⟩

theorem expandPass_true_growth {en kr : List Cue} {used : List ℕ}
    {gEn gKr : List Cue} (h : (expandPass en kr used gEn gKr).2.2 = true) :
    gEn.length + gKr.length <
      (expandPass en kr used gEn gKr).1.length +
        (expandPass en kr used gEn gKr).2.1.length := by
  rcases Bool.or_eq_true_iff.1 h with h1 | h2
  · exact Nat.add_lt_add_of_lt_of_le ((expandEn_spec _ _ en gEn).2.2.1 h1)
      (expandKr_spec _ _ kr used gKr).1
  · exact Nat.add_lt_add_of_le_of_lt (expandEn_spec _ _ en gEn).1
      ((expandKr_spec _ _ kr used gKr).2.2.1 h2)

theorem expandPass_members {en kr : List Cue} {used : List ℕ} {gEn gKr : List Cue} :
    (∀ y ∈ (expandPass en kr used gEn gKr).1, y ∈ gEn ∨ y ∈ en) ∧
      ∀ y ∈ (expandPass en kr used gEn gKr).2.1, y ∈ gKr ∨ y ∈ kr :=
  ⟨(expandEn_spec _ _ en gEn).2.2.2, (expandKr_spec _ _ kr used gKr).2.2.2⟩

theorem distinctStarts_nodup_map {g : List Cue} (h : distinctStarts g) :
    (g.map Cue.start_sec).Nodup := by
  rw [List.Nodup, List.pairwise_map]
  exact h

/-- A group with pairwise-distinct start keys all drawn from a track has at
most as many members as the track. -/
theorem group_length_le {g track : List Cue} (hd : distinctStarts g)
    (hsub : ∀ y ∈ g, y.start_sec ∈ track.map Cue.start_sec) :
    g.length ≤ track.length := by
  have h1 : (g.map Cue.start_sec) ⊆ (track.map Cue.start_sec) := by
    intro s hs
    rcases List.mem_map.1 hs with ⟨y, hy, rfl⟩
    exact hsub y hy
  have h2 := (List.subperm_of_subset (distinctStarts_nodup_map hd) h1).length_le
  simpa using h2

/-- The loop invariant for the fuel argument: distinct start keys per group
and group members drawn from the corresponding track. -/
theorem expandLoop_fixpoint (en kr : List Cue) (used : List ℕ) :
    ∀ (fuel : ℕ) (gEn gKr : List Cue),
      distinctStarts gEn → distinctStarts gKr →
      (∀ y ∈ gEn, y.start_sec ∈ en.map Cue.start_sec) →
      (∀ y ∈ gKr, y.start_sec ∈ kr.map Cue.start_sec) →
      en.length + kr.length + 1 ≤ fuel + (gEn.length + gKr.length) →
      (expandPass en kr used
        (expandLoop en kr used fuel gEn gKr).1
        (expandLoop en kr used fuel gEn gKr).2).2.2 = false := by
  intro fuel
  induction fuel with
  | zero =>
    intro gEn gKr hdEn hdKr hsEn hsKr hsize
    exfalso
    have h1 := group_length_le hdEn hsEn
    have h2 := group_length_le hdKr hsKr
    omega
  | succ fuel ih =>
    intro gEn gKr hdEn hdKr hsEn hsKr hsize
    rw [expandLoop]
    by_cases hflag : (expandPass en kr used gEn gKr).2.2 = true
    · rw [if_pos hflag]
      have hgrow := expandPass_true_growth hflag
      obtain ⟨hmemEn, hmemKr⟩ := @expandPass_members en kr used gEn gKr
      refine ih _ _ (expandEn_distinct _ _ en hdEn)
        (expandKr_distinct _ _ kr used hdKr) ?_ ?_ ?_
      · intro y hy
        rcases hmemEn y hy with h | h
        · exact hsEn y h
        · exact List.mem_map_of_mem _ h
      · intro y hy
        rcases hmemKr y hy with h | h
        · exact hsKr y h
        · exact List.mem_map_of_mem _ h
      · omega
    · rw [if_neg hflag]
      have hf : (expandPass en kr used gEn gKr).2.2 = false :=
        Bool.not_eq_true _ ▸ Bool.of_not_eq_true hflag
      obtain ⟨he, hk⟩ := expandPass_false_unchanged hf
      show (expandPass en kr used
        (expandPass en kr used gEn gKr).1 (expandPass en kr used gEn gKr).2.1).2.2 = false
      rw [he, hk]
      exact hf

/-- C7: for every pair of finite input tracks the fixed-point expansion
terminates within the fuel `synchronize_cues` provides: after running
`expandLoop` with `loopFuel`, one further pass adds nothing (each earlier
pass either added at least one cue to the start-keyed, track-bounded groups
or exited), so the fueled loop computes the limit of the Python
`while True:` loop and `synchronize_cues` is a total function. -/
theorem c7_expansion_terminates (en kr : List Cue) (used : List ℕ)
    (gEn gKr : List Cue) (hdEn : distinctStarts gEn) (hdKr : distinctStarts gKr)
    (hsEn : ∀ y ∈ gEn, y.start_sec ∈ en.map Cue.start_sec)
    (hsKr : ∀ y ∈ gKr, y.start_sec ∈ kr.map Cue.start_sec) :
    (expandPass en kr used
      (expandLoop en kr used (loopFuel en kr) gEn gKr).1
      (expandLoop en kr used (loopFuel en kr) gEn gKr).2).2.2 = false := by
  refine expandLoop_fixpoint en kr used (loopFuel en kr) gEn gKr hdEn hdKr hsEn hsKr ?_
  rw [loopFuel]
  omega

/-- C7 witness. -/
theorem c7_expansion_terminates_witness :
    distinctStarts [(⟨0, 2, "A"⟩ : Cue)] ∧ distinctStarts [(⟨1, 3, "k"⟩ : Cue)] ∧
      (∀ y ∈ [(⟨0, 2, "A"⟩ : Cue)], y.start_sec ∈
        [(⟨0, 2, "A"⟩ : Cue)].map Cue.start_sec) ∧
      (∀ y ∈ [(⟨1, 3, "k"⟩ : Cue)], y.start_sec ∈
        [(⟨1, 3, "k"⟩ : Cue)].map Cue.start_sec) ∧
      (expandPass [⟨0, 2, "A"⟩] [⟨1, 3, "k"⟩] []
        (expandLoop [⟨0, 2, "A"⟩] [⟨1, 3, "k"⟩] []
          (loopFuel [⟨0, 2, "A"⟩] [⟨1, 3, "k"⟩]) [⟨0, 2, "A"⟩] [⟨1, 3, "k"⟩]).1
        (expandLoop [⟨0, 2, "A"⟩] [⟨1, 3, "k"⟩] []
          (loopFuel [⟨0, 2, "A"⟩] [⟨1, 3, "k"⟩]) [⟨0, 2, "A"⟩] [⟨1, 3, "k"⟩]).2).2.2 =
        false :=
  ⟨by decide, by decide, by decide, by decide,
    c7_expansion_terminates [⟨0, 2, "A"⟩] [⟨1, 3, "k"⟩] [] [⟨0, 2, "A"⟩] [⟨1, 3, "k"⟩]
      (by decide) (by decide) (by decide) (by decide)⟩

/-! ## Claim C1: interval and bound auxiliaries -/

theorem ivOverlap_pos {s e : ℚ} {k : Cue} (h : ivOverlap s e k) :
    s < e ∧ k.start_sec < k.end_sec := by
  rw [ivOverlap] at h
  constructor
  · exact lt_of_le_of_lt (le_max_left _ _) (lt_of_lt_of_le h (min_le_left _ _))
  · exact lt_of_le_of_lt (le_max_right _ _) (lt_of_lt_of_le h (min_le_right _ _))

theorem ivOverlap_widen {s e s' e' : ℚ} {k : Cue} (hs : s' ≤ s) (he : e ≤ e')
    (h : ivOverlap s e k) : ivOverlap s' e' k := by
  rw [ivOverlap] at h ⊢
  exact lt_of_le_of_lt (max_le_max hs (le_refl _))
    (lt_of_lt_of_le h (min_le_min he (le_refl _)))

theorem cueOverlap_iff_iv {c k : Cue} :
    cueOverlap c k ↔ ivOverlap c.start_sec c.end_sec k := Iff.rfl

theorem maxEnd_le_of_forall {g : List Cue} {b : ℚ} (hg : g ≠ [])
    (h : ∀ k ∈ g, k.end_sec ≤ b) : maxEnd g ≤ b := by
  obtain ⟨k, hk, he⟩ := maxEnd_mem hg
  exact he ▸ h k hk

theorem le_minStart_of_forall {g : List Cue} {b : ℚ} (hg : g ≠ [])
    (h : ∀ k ∈ g, b ≤ k.start_sec) : b ≤ minStart g := by
  obtain ⟨k, hk, he⟩ := minStart_mem hg
  exact he ▸ h k hk

theorem minStart_append_le {g t : List Cue} (hg : g ≠ []) :
    minStart (g ++ t) ≤ minStart g := by
  cases g with
  | nil => exact absurd rfl hg
  | cons x xs =>
    show ((xs ++ t).foldl (fun a c => min a c.start_sec) x.start_sec) ≤ _
    rw [List.foldl_append]
    exact foldl_min_le_init t _

theorem le_maxEnd_append {g t : List Cue} (hg : g ≠ []) :
    maxEnd g ≤ maxEnd (g ++ t) := by
  cases g with
  | nil => exact absurd rfl hg
  | cons x xs =>
    show _ ≤ ((xs ++ t).foldl (fun a c => max a c.end_sec) x.end_sec)
    rw [List.foldl_append]
    exact foldl_max_le_init t _

/-- An interval that strictly contains a pair's whole primary union interval
overlaps that pair's secondary union interval (because some secondary member
overlaps the primary interval). -/
theorem span_overlap {p : SyncedPairExt} (hk : p.group_kr ≠ [])
    (hol : ∀ k ∈ p.group_kr,
      ivOverlap (minStart p.group_en) (maxEnd p.group_en) k)
    {W : Cue} (h1 : W.start_sec < minStart p.group_en)
    (h2 : maxEnd p.group_en < W.end_sec) :
    ivOverlap (minStart p.group_kr) (maxEnd p.group_kr) W := by
  obtain ⟨k0, hk0⟩ := List.exists_mem_of_ne_nil _ hk
  have hxy := hol k0 hk0
  rw [ivOverlap] at hxy ⊢
  have e1 : minStart p.group_kr ≤ k0.start_sec := minStart_le_of_mem hk0
  have e2 : k0.end_sec ≤ maxEnd p.group_kr := le_maxEnd_of_mem hk0
  have hy1 : max (minStart p.group_kr) W.start_sec <
      min (maxEnd p.group_en) k0.end_sec :=
    max_lt (lt_of_le_of_lt (e1.trans (le_max_right _ _)) hxy)
      (lt_of_le_of_lt ((le_of_lt h1).trans (le_max_left _ _)) hxy)
  have hy2 : min (maxEnd p.group_en) k0.end_sec ≤
      min (maxEnd p.group_kr) W.end_sec :=
    le_min (le_trans (min_le_right _ _) e2)
      (le_trans (min_le_left _ _) (le_of_lt h2))
  exact lt_of_lt_of_le hy1 hy2

/-! ## Claim C1: strong membership, prefix, and fixed-point scan lemmas -/

theorem foldl_prefix_spec {α : Type} (step : List Cue × Bool → α → List Cue × Bool) :
    ∀ l : List α,
      (∀ (acc : List Cue × Bool), ∀ x ∈ l,
        step acc x = acc ∨ ∃ c, step acc x = (acc.1 ++ [c], true)) →
      ∀ acc : List Cue × Bool, ∃ t, (l.foldl step acc).1 = acc.1 ++ t := by
  intro l
  induction l with
  | nil => exact fun _ acc => ⟨[], by simp⟩
  | cons x xs ih =>
    intro hstep acc
    rw [List.foldl_cons]
    rcases hstep acc x (List.mem_cons_self _ _) with he | ⟨c, he⟩
    · rw [he]
      exact ih (fun acc' x' hx' => hstep acc' x' (List.mem_cons_of_mem _ hx')) acc
    · rw [he]
      obtain ⟨t, ht⟩ :=
        ih (fun acc' x' hx' => hstep acc' x' (List.mem_cons_of_mem _ hx'))
          (acc.1 ++ [c], true)
      exact ⟨c :: t, by rw [ht]; simp⟩

theorem expandEn_hstep (krS krE : ℚ) (en : List Cue) :
    ∀ (acc : List Cue × Bool), ∀ x ∈ en,
      (fun gf c =>
        if hasStart gf.1 c.start_sec then gf
        else if ivOverlap krS krE c then (gf.1 ++ [c], true)
        else gf) acc x = acc ∨
      ∃ c, (c ∈ en ∧ ivOverlap krS krE c) ∧
        (fun gf c =>
          if hasStart gf.1 c.start_sec then gf
          else if ivOverlap krS krE c then (gf.1 ++ [c], true)
          else gf) acc x = (acc.1 ++ [c], true) := by
  intro acc x hx
  dsimp only
  by_cases h1 : hasStart acc.1 x.start_sec
  · left; rw [if_pos h1]
  · by_cases h2 : ivOverlap krS krE x
    · right
      exact ⟨x, ⟨hx, h2⟩, by rw [if_neg h1, if_pos h2]⟩
    · left; rw [if_neg h1, if_neg h2]

theorem expandKr_hstep (enS enE : ℚ) (kr : List Cue) (used : List ℕ) :
    ∀ (acc : List Cue × Bool), ∀ x ∈ kr.enum,
      (fun gf (jc : ℕ × Cue) =>
        if jc.1 ∉ used ∧ ¬ hasStart gf.1 jc.2.start_sec then
          if ivOverlap enS enE jc.2 then (gf.1 ++ [jc.2], true) else gf
        else gf) acc x = acc ∨
      ∃ c, ((∃ j : ℕ, kr[j]? = some c ∧ j ∉ used) ∧ ivOverlap enS enE c) ∧
        (fun gf (jc : ℕ × Cue) =>
          if jc.1 ∉ used ∧ ¬ hasStart gf.1 jc.2.start_sec then
            if ivOverlap enS enE jc.2 then (gf.1 ++ [jc.2], true) else gf
          else gf) acc x = (acc.1 ++ [c], true) := by
  intro acc jc hjc
  dsimp only
  by_cases h1 : jc.1 ∉ used ∧ ¬ hasStart acc.1 jc.2.start_sec
  · by_cases h2 : ivOverlap enS enE jc.2
    · right
      refine ⟨jc.2, ⟨⟨jc.1, ?_, h1.1⟩, h2⟩, by rw [if_pos h1, if_pos h2]⟩
      exact List.mem_enum_iff_getElem?.1 hjc
    · left; rw [if_pos h1, if_neg h2]
  · left; rw [if_neg h1]

theorem expandEn_members_strong (krS krE : ℚ) (en g : List Cue) :
    ∀ y ∈ (expandEn krS krE en g).1,
      y ∈ g ∨ (y ∈ en ∧ ivOverlap krS krE y) := by
  have H := foldl_grow_spec _ (fun c => c ∈ en ∧ ivOverlap krS krE c) en
    (expandEn_hstep krS krE en) (g, false)
  exact H.2.2.2

theorem expandKr_members_strong (enS enE : ℚ) (kr : List Cue) (used : List ℕ)
    (g : List Cue) :
    ∀ y ∈ (expandKr enS enE kr used g).1,
      y ∈ g ∨ ((∃ j : ℕ, kr[j]? = some y ∧ j ∉ used) ∧ ivOverlap enS enE y) := by
  have H := foldl_grow_spec _
    (fun c => (∃ j : ℕ, kr[j]? = some c ∧ j ∉ used) ∧ ivOverlap enS enE c)
    kr.enum (expandKr_hstep enS enE kr used) (g, false)
  exact H.2.2.2

theorem expandEn_prefix (krS krE : ℚ) (en g : List Cue) :
    ∃ t, (expandEn krS krE en g).1 = g ++ t := by
  show ∃ t, (en.foldl (fun gf c =>
      if hasStart gf.1 c.start_sec then gf
      else if ivOverlap krS krE c then (gf.1 ++ [c], true)
      else gf) (g, false)).1 = g ++ t
  refine foldl_prefix_spec _ en ?_ (g, false)
  intro acc x hx
  rcases expandEn_hstep krS krE en acc x hx with h | ⟨c, _, h⟩
  · exact Or.inl h
  · exact Or.inr ⟨c, h⟩

theorem expandKr_prefix (enS enE : ℚ) (kr : List Cue) (used : List ℕ)
    (g : List Cue) : ∃ t, (expandKr enS enE kr used g).1 = g ++ t := by
  show ∃ t, (kr.enum.foldl (fun gf (jc : ℕ × Cue) =>
      if jc.1 ∉ used ∧ ¬ hasStart gf.1 jc.2.start_sec then
        if ivOverlap enS enE jc.2 then (gf.1 ++ [jc.2], true) else gf
      else gf) (g, false)).1 = g ++ t
  refine foldl_prefix_spec _ kr.enum ?_ (g, false)
  intro acc x hx
  rcases expandKr_hstep enS enE kr used acc x hx with h | ⟨c, _, h⟩
  · exact Or.inl h
  · exact Or.inr ⟨c, h⟩

theorem expandLoop_prefix (en kr : List Cue) (used : List ℕ) :
    ∀ (fuel : ℕ) (gEn gKr : List Cue),
      ∃ tEn tKr, (expandLoop en kr used fuel gEn gKr).1 = gEn ++ tEn ∧
        (expandLoop en kr used fuel gEn gKr).2 = gKr ++ tKr := by
  intro fuel
  induction fuel with
  | zero => exact fun gEn gKr => ⟨[], [], by simp [expandLoop], by simp [expandLoop]⟩
  | succ fuel ih =>
    intro gEn gKr
    obtain ⟨t1, h1⟩ := expandEn_prefix (minStart gKr) (maxEnd gKr) en gEn
    obtain ⟨t2, h2⟩ := expandKr_prefix
      (minStart (expandEn (minStart gKr) (maxEnd gKr) en gEn).1)
      (maxEnd (expandEn (minStart gKr) (maxEnd gKr) en gEn).1) kr used gKr
    rw [expandLoop]
    split
    · obtain ⟨t3, t4, h3, h4⟩ := ih (expandPass en kr used gEn gKr).1
        (expandPass en kr used gEn gKr).2.1
      refine ⟨t1 ++ t3, t2 ++ t4, ?_, ?_⟩
      · rw [h3]
        show (expandEn _ _ en gEn).1 ++ t3 = _
        rw [h1, List.append_assoc]
      · rw [h4]
        show (expandKr _ _ kr used gKr).1 ++ t4 = _
        rw [h2, List.append_assoc]
    · exact ⟨t1, t2, h1, h2⟩

/-! ## Claim C1: what a finished (flag-false) scan guarantees -/

theorem foldl_flag_mono {α : Type} (step : List Cue × Bool → α → List Cue × Bool)
    (hstep : ∀ (acc : List Cue × Bool) (x : α),
      (step acc x).2 = acc.2 ∨ (step acc x).2 = true) :
    ∀ (l : List α) (acc : List Cue × Bool), acc.2 = true →
      (l.foldl step acc).2 = true := by
  intro l
  induction l with
  | nil => exact fun acc h => h
  | cons x xs ih =>
    intro acc h
    rw [List.foldl_cons]
    rcases hstep acc x with h' | h'
    · exact ih _ (h'.trans h)
    · exact ih _ h'

theorem expandEn_flag_mono (krS krE : ℚ) :
    ∀ (l : List Cue) (acc : List Cue × Bool), acc.2 = true →
      ((l.foldl (fun gf c =>
        if hasStart gf.1 c.start_sec then gf
        else if ivOverlap krS krE c then (gf.1 ++ [c], true)
        else gf) acc).2 = true) := by
  refine foldl_flag_mono _ ?_
  intro acc x
  dsimp only
  by_cases h1 : hasStart acc.1 x.start_sec
  · left; rw [if_pos h1]
  · by_cases h2 : ivOverlap krS krE x
    · right; rw [if_neg h1, if_pos h2]
    · left; rw [if_neg h1, if_neg h2]

theorem expandEn_fix (krS krE : ℚ) (en g : List Cue)
    (hflag : (expandEn krS krE en g).2 = false) :
    ∀ W ∈ en, ¬ hasStart g W.start_sec → ¬ ivOverlap krS krE W := by
  rw [expandEn] at hflag
  revert hflag
  suffices H : ∀ (l : List Cue) (acc : List Cue × Bool),
      (l.foldl (fun gf c =>
        if hasStart gf.1 c.start_sec then gf
        else if ivOverlap krS krE c then (gf.1 ++ [c], true)
        else gf) acc).2 = false →
      ∀ W ∈ l, ¬ hasStart acc.1 W.start_sec → ¬ ivOverlap krS krE W by
    exact H en (g, false)
  intro l
  induction l with
  | nil => intro acc _ W hW; cases hW
  | cons x xs ih =>
    intro acc hflag W hW hns
    rw [List.foldl_cons] at hflag
    by_cases h1 : hasStart acc.1 x.start_sec
    · rw [show (if hasStart acc.1 x.start_sec then acc
          else if ivOverlap krS krE x then (acc.1 ++ [x], true) else acc) = acc
          from if_pos h1] at hflag
      rcases List.mem_cons.1 hW with rfl | hW'
      · exact absurd h1 hns
      · exact ih acc hflag W hW' hns
    · by_cases h2 : ivOverlap krS krE x
      · exfalso
        rw [show (if hasStart acc.1 x.start_sec then acc
            else if ivOverlap krS krE x then (acc.1 ++ [x], true) else acc) =
            (acc.1 ++ [x], true) from by rw [if_neg h1, if_pos h2]] at hflag
        rw [expandEn_flag_mono krS krE xs (acc.1 ++ [x], true) rfl] at hflag
        cases hflag
      · rw [show (if hasStart acc.1 x.start_sec then acc
            else if ivOverlap krS krE x then (acc.1 ++ [x], true) else acc) = acc
            from by rw [if_neg h1, if_neg h2]] at hflag
        rcases List.mem_cons.1 hW with rfl | hW'
        · exact h2
        · exact ih acc hflag W hW' hns

theorem expandKr_flag_mono (enS enE : ℚ) (used : List ℕ) :
    ∀ (l : List (ℕ × Cue)) (acc : List Cue × Bool), acc.2 = true →
      ((l.foldl (fun gf (jc : ℕ × Cue) =>
        if jc.1 ∉ used ∧ ¬ hasStart gf.1 jc.2.start_sec then
          if ivOverlap enS enE jc.2 then (gf.1 ++ [jc.2], true) else gf
        else gf) acc).2 = true) := by
  refine foldl_flag_mono _ ?_
  intro acc jc
  dsimp only
  by_cases h1 : jc.1 ∉ used ∧ ¬ hasStart acc.1 jc.2.start_sec
  · by_cases h2 : ivOverlap enS enE jc.2
    · right; rw [if_pos h1, if_pos h2]
    · left; rw [if_pos h1, if_neg h2]
  · left; rw [if_neg h1]

theorem expandKr_fix (enS enE : ℚ) (kr : List Cue) (used : List ℕ) (g : List Cue)
    (hflag : (expandKr enS enE kr used g).2 = false) :
    ∀ jc ∈ kr.enum, jc.1 ∉ used → ¬ hasStart g jc.2.start_sec →
      ¬ ivOverlap enS enE jc.2 := by
  rw [expandKr] at hflag
  revert hflag
  suffices H : ∀ (l : List (ℕ × Cue)) (acc : List Cue × Bool),
      (l.foldl (fun gf (jc : ℕ × Cue) =>
        if jc.1 ∉ used ∧ ¬ hasStart gf.1 jc.2.start_sec then
          if ivOverlap enS enE jc.2 then (gf.1 ++ [jc.2], true) else gf
        else gf) acc).2 = false →
      ∀ jc ∈ l, jc.1 ∉ used → ¬ hasStart acc.1 jc.2.start_sec →
        ¬ ivOverlap enS enE jc.2 by
    exact H kr.enum (g, false)
  intro l
  induction l with
  | nil => intro acc _ jc hjc; cases hjc
  | cons x xs ih =>
    intro acc hflag jc hjc hju hns
    rw [List.foldl_cons] at hflag
    by_cases h1 : x.1 ∉ used ∧ ¬ hasStart acc.1 x.2.start_sec
    · by_cases h2 : ivOverlap enS enE x.2
      · exfalso
        rw [show (if x.1 ∉ used ∧ ¬ hasStart acc.1 x.2.start_sec then
            if ivOverlap enS enE x.2 then (acc.1 ++ [x.2], true) else acc
            else acc) = (acc.1 ++ [x.2], true) from by rw [if_pos h1, if_pos h2]]
          at hflag
        rw [expandKr_flag_mono enS enE used xs (acc.1 ++ [x.2], true) rfl] at hflag
        cases hflag
      · rw [show (if x.1 ∉ used ∧ ¬ hasStart acc.1 x.2.start_sec then
            if ivOverlap enS enE x.2 then (acc.1 ++ [x.2], true) else acc
            else acc) = acc from by rw [if_pos h1, if_neg h2]] at hflag
        rcases List.mem_cons.1 hjc with rfl | hjc'
        · exact h2
        · exact ih acc hflag jc hjc' hju hns
    · rw [show (if x.1 ∉ used ∧ ¬ hasStart acc.1 x.2.start_sec then
          if ivOverlap enS enE x.2 then (acc.1 ++ [x.2], true) else acc
          else acc) = acc from if_neg h1] at hflag
      rcases List.mem_cons.1 hjc with rfl | hjc'
      · exact absurd ⟨hju, hns⟩ h1
      · exact ih acc hflag jc hjc' hju hns

/-! ## Claim C1: the one-sidedness invariant of a group under construction -/

theorem ivOverlap_start_lt {s e : ℚ} {k : Cue} (h : ivOverlap s e k) :
    k.start_sec < e :=
  lt_of_le_of_lt (le_max_right _ _) (lt_of_lt_of_le h (min_le_left _ _))

theorem ivOverlap_lt_end {s e : ℚ} {k : Cue} (h : ivOverlap s e k) :
    s < k.end_sec :=
  lt_of_le_of_lt (le_max_left _ _) (lt_of_lt_of_le h (min_le_right _ _))

/-- The facts recorded about an already-emitted pair that the construction
of any later group relies on: a non-empty secondary group whose members all
overlap the primary union interval, the primary fixed point (any track cue
overlapping the secondary union interval is a group member), and the
secondary fixed point (any unconsumed original secondary cue does not
overlap the primary union interval). -/
def C1Pair (en kr : List Cue) (used : List ℕ) (p : SyncedPairExt) : Prop :=
  p.group_kr ≠ [] ∧
  (∀ k ∈ p.group_kr, ivOverlap (minStart p.group_en) (maxEnd p.group_en) k) ∧
  (∀ W ∈ en, ¬ hasStart p.group_en W.start_sec →
    ¬ ivOverlap (minStart p.group_kr) (maxEnd p.group_kr) W) ∧
  (∀ j : ℕ, j ∉ used → ∀ k : Cue, kr[j]? = some k →
    ¬ ivOverlap (minStart p.group_en) (maxEnd p.group_en) k)

theorem c1pair_pos {en kr : List Cue} {used : List ℕ} {p : SyncedPairExt}
    (hp : C1Pair en kr used p) : minStart p.group_en < maxEnd p.group_en := by
  obtain ⟨k0, hk0⟩ := List.exists_mem_of_ne_nil _ hp.1
  exact (ivOverlap_pos (hp.2.1 k0 hk0)).1

/-- No track cue can strictly span an emitted pair's primary union
interval: if its start is one of the group's keys that start is inside the
primary interval, and otherwise it overlaps the pair's secondary union
interval and the primary fixed point would have absorbed it. -/
theorem c1pair_no_span {en kr : List Cue} {used : List ℕ} {p : SyncedPairExt}
    (hp : C1Pair en kr used p) {W : Cue} (hWen : W ∈ en)
    (h1 : W.start_sec < minStart p.group_en)
    (h2 : maxEnd p.group_en < W.end_sec) : False := by
  by_cases hmem : hasStart p.group_en W.start_sec
  · obtain ⟨m, hm, hms⟩ := hmem
    exact absurd h1 (not_lt.2 (hms ▸ minStart_le_of_mem hm))
  · exact hp.2.2.1 W hWen hmem (span_overlap hp.1 hp.2.1 h1 h2)

/-- An unconsumed secondary cue lies entirely on one side of an emitted
pair's primary union interval. -/
theorem c1pair_kr_side {en kr : List Cue} {used : List ℕ} {p : SyncedPairExt}
    (hp : C1Pair en kr used p) {k : Cue}
    (hj : ∃ j : ℕ, kr[j]? = some k ∧ j ∉ used)
    (hk : k.start_sec < k.end_sec) :
    k.end_sec ≤ minStart p.group_en ∨ maxEnd p.group_en ≤ k.start_sec := by
  obtain ⟨j, hji, hju⟩ := hj
  have hno := hp.2.2.2 j hju k hji
  by_contra hcon
  push_neg at hcon
  obtain ⟨ha, hb⟩ := hcon
  exact hno (max_lt (lt_min (c1pair_pos hp) ha) (lt_min hb hk))

theorem initialKrGroup_members (c : Cue) (kr : List Cue) (used : List ℕ) :
    ∀ k ∈ initialKrGroup c kr used,
      cueOverlap c k ∧ ∃ j : ℕ, kr[j]? = some k ∧ j ∉ used := by
  rw [initialKrGroup]
  suffices H : ∀ (l : List (ℕ × Cue)) (acc : List Cue),
      (∀ jc ∈ l, kr[jc.1]? = some jc.2) →
      (∀ k ∈ acc, cueOverlap c k ∧ ∃ j : ℕ, kr[j]? = some k ∧ j ∉ used) →
      ∀ k ∈ l.foldl (fun g jc =>
        if jc.1 ∈ used then g
        else if cueOverlap c jc.2 then dictInsert g jc.2
        else g) acc,
        cueOverlap c k ∧ ∃ j : ℕ, kr[j]? = some k ∧ j ∉ used by
    exact H kr.enum []
      (fun jc hjc => List.mem_enum_iff_getElem?.1 hjc)
      (fun k hk => absurd hk (List.not_mem_nil k))
  intro l
  induction l with
  | nil => exact fun acc _ hacc => hacc
  | cons jc rest ih =>
    intro acc hl hacc
    rw [List.foldl_cons]
    refine ih _ (fun x hx => hl x (List.mem_cons_of_mem _ hx)) ?_
    by_cases h1 : jc.1 ∈ used
    · rw [if_pos h1]; exact hacc
    · rw [if_neg h1]
      by_cases h2 : cueOverlap c jc.2
      · rw [if_pos h2]
        intro k hk
        rcases mem_dictInsert hk with rfl | hk'
        · exact ⟨h2, jc.1, hl jc (List.mem_cons_self _ _), h1⟩
        · exact hacc k hk'
      · rw [if_neg h2]; exact hacc

/-- The invariant of the group pair being built by one seed: non-empty
start-keyed groups, members from the tracks (secondary members carrying an
unconsumed index), every secondary member overlapping the primary union
interval, and — for every previously emitted pair — the whole working pair
lying strictly on one side of that pair's primary union interval. -/
def C1Loop (en kr : List Cue) (used : List ℕ) (pairs : List SyncedPairExt)
    (gEn gKr : List Cue) : Prop :=
  gEn ≠ [] ∧ gKr ≠ [] ∧
  (∀ W ∈ gEn, W ∈ en) ∧
  (∀ k ∈ gKr, ∃ j : ℕ, kr[j]? = some k ∧ j ∉ used) ∧
  (∀ k ∈ gKr, ivOverlap (minStart gEn) (maxEnd gEn) k) ∧
  ∀ p ∈ pairs,
    ((∀ k ∈ gKr, k.end_sec ≤ minStart p.group_en) ∧
      (∀ W ∈ gEn, W.start_sec < minStart p.group_en)) ∨
    ((∀ k ∈ gKr, maxEnd p.group_en ≤ k.start_sec) ∧
      (∀ W ∈ gEn, maxEnd p.group_en < W.end_sec))

theorem c1loop_entry (en kr : List Cue) (used : List ℕ)
    (pairs : List SyncedPairExt) (hp : ∀ p ∈ pairs, C1Pair en kr used p)
    (c : Cue) (hc : c ∈ en)
    (hne : initialKrGroup c kr used ≠ []) :
    C1Loop en kr used pairs [c] (initialKrGroup c kr used) := by
  have hmem := initialKrGroup_members c kr used
  obtain ⟨k0, hk0⟩ := List.exists_mem_of_ne_nil _ hne
  refine ⟨by simp, hne, ?_, ?_, ?_, ?_⟩
  · intro W hW
    rw [List.mem_singleton] at hW
    exact hW ▸ hc
  · exact fun k hk => (hmem k hk).2
  · exact fun k hk => (hmem k hk).1
  · intro p hpp
    rcases c1pair_kr_side (hp p hpp) (hmem k0 hk0).2
        ((ivOverlap_pos (hmem k0 hk0).1).2) with hL | hR
    · left
      have hcs : c.start_sec < minStart p.group_en :=
        lt_of_lt_of_le (ivOverlap_lt_end (hmem k0 hk0).1) hL
      refine ⟨?_, ?_⟩
      · intro k hk
        rcases c1pair_kr_side (hp p hpp) (hmem k hk).2
            ((ivOverlap_pos (hmem k hk).1).2) with h | h
        · exact h
        · exfalso
          have hce : maxEnd p.group_en < c.end_sec :=
            lt_of_le_of_lt h (ivOverlap_start_lt (hmem k hk).1)
          exact c1pair_no_span (hp p hpp) hc hcs hce
      · intro W hW
        rw [List.mem_singleton] at hW
        exact hW ▸ hcs
    · right
      have hce : maxEnd p.group_en < c.end_sec :=
        lt_of_le_of_lt hR (ivOverlap_start_lt (hmem k0 hk0).1)
      refine ⟨?_, ?_⟩
      · intro k hk
        rcases c1pair_kr_side (hp p hpp) (hmem k hk).2
            ((ivOverlap_pos (hmem k hk).1).2) with h | h
        · exfalso
          have hcs : c.start_sec < minStart p.group_en :=
            lt_of_lt_of_le (ivOverlap_lt_end (hmem k hk).1) h
          exact c1pair_no_span (hp p hpp) hc hcs hce
        · exact h
      · intro W hW
        rw [List.mem_singleton] at hW
        exact hW ▸ hce

theorem c1loop_pass (en kr : List Cue) (used : List ℕ)
    (pairs : List SyncedPairExt) (hp : ∀ p ∈ pairs, C1Pair en kr used p)
    {gEn gKr : List Cue} (h : C1Loop en kr used pairs gEn gKr) :
    C1Loop en kr used pairs (expandPass en kr used gEn gKr).1
      (expandPass en kr used gEn gKr).2.1 := by
  obtain ⟨hEnne, hKrne, hEnSub, hKrIdx, hOl, hSide⟩ := h
  obtain ⟨tE, htE⟩ := expandEn_prefix (minStart gKr) (maxEnd gKr) en gEn
  have hAne : (expandEn (minStart gKr) (maxEnd gKr) en gEn).1 ≠ [] := by
    rw [htE]
    exact fun hcon => hEnne (List.append_eq_nil.1 hcon).1
  have hAmem := expandEn_members_strong (minStart gKr) (maxEnd gKr) en gEn
  have hAsub : ∀ W ∈ (expandEn (minStart gKr) (maxEnd gKr) en gEn).1, W ∈ en := by
    intro W hW
    rcases hAmem W hW with h' | h'
    · exact hEnSub W h'
    · exact h'.1
  have hminA : minStart (expandEn (minStart gKr) (maxEnd gKr) en gEn).1 ≤
      minStart gEn := htE ▸ minStart_append_le hEnne
  have hmaxA : maxEnd gEn ≤
      maxEnd (expandEn (minStart gKr) (maxEnd gKr) en gEn).1 :=
    htE ▸ le_maxEnd_append hEnne
  have hKmem := expandKr_members_strong
    (minStart (expandEn (minStart gKr) (maxEnd gKr) en gEn).1)
    (maxEnd (expandEn (minStart gKr) (maxEnd gKr) en gEn).1) kr used gKr
  obtain ⟨tK, htK⟩ := expandKr_prefix
    (minStart (expandEn (minStart gKr) (maxEnd gKr) en gEn).1)
    (maxEnd (expandEn (minStart gKr) (maxEnd gKr) en gEn).1) kr used gKr
  refine ⟨hAne, ?_, hAsub, ?_, ?_, ?_⟩
  · show (expandKr _ _ kr used gKr).1 ≠ []
    rw [htK]
    exact fun hcon => hKrne (List.append_eq_nil.1 hcon).1
  · show ∀ k ∈ (expandKr _ _ kr used gKr).1, _
    intro k hk
    rcases hKmem k hk with h' | h'
    · exact hKrIdx k h'
    · exact h'.1
  · show ∀ k ∈ (expandKr _ _ kr used gKr).1, _
    intro k hk
    rcases hKmem k hk with h' | h'
    · exact ivOverlap_widen hminA hmaxA (hOl k h')
    · exact h'.2
  · intro p hpp
    rcases hSide p hpp with ⟨hKl, hEl⟩ | ⟨hKr2, hEr⟩
    · left
      have hEl' : ∀ W ∈ (expandEn (minStart gKr) (maxEnd gKr) en gEn).1,
          W.start_sec < minStart p.group_en := by
        intro W hW
        rcases hAmem W hW with h' | h'
        · exact hEl W h'
        · exact lt_of_lt_of_le (ivOverlap_start_lt h'.2)
            (maxEnd_le_of_forall hKrne hKl)
      refine ⟨?_, hEl'⟩
      show ∀ k ∈ (expandKr _ _ kr used gKr).1, _
      intro k hk
      rcases hKmem k hk with h' | h'
      · exact hKl k h'
      · rcases c1pair_kr_side (hp p hpp) h'.1 ((ivOverlap_pos h'.2).2) with h2 | h2
        · exact h2
        · exfalso
          obtain ⟨W, hW, hWe⟩ := maxEnd_mem hAne
          refine c1pair_no_span (hp p hpp) (hAsub W hW) (hEl' W hW) ?_
          rw [hWe]
          exact lt_of_le_of_lt h2 (ivOverlap_start_lt h'.2)
    · right
      have hEr' : ∀ W ∈ (expandEn (minStart gKr) (maxEnd gKr) en gEn).1,
          maxEnd p.group_en < W.end_sec := by
        intro W hW
        rcases hAmem W hW with h' | h'
        · exact hEr W h'
        · exact lt_of_le_of_lt (le_minStart_of_forall hKrne hKr2)
            (ivOverlap_lt_end h'.2)
      refine ⟨?_, hEr'⟩
      show ∀ k ∈ (expandKr _ _ kr used gKr).1, _
      intro k hk
      rcases hKmem k hk with h' | h'
      · exact hKr2 k h'
      · rcases c1pair_kr_side (hp p hpp) h'.1 ((ivOverlap_pos h'.2).2) with h2 | h2
        · exfalso
          obtain ⟨W, hW, hWs⟩ := minStart_mem hAne
          refine c1pair_no_span (hp p hpp) (hAsub W hW) ?_ (hEr' W hW)
          rw [hWs]
          exact lt_of_lt_of_le (ivOverlap_lt_end h'.2) h2
        · exact h2

/-! ## Claim C1: consumption marking -/

theorem c1loop_loop (en kr : List Cue) (used : List ℕ)
    (pairs : List SyncedPairExt) (hp : ∀ p ∈ pairs, C1Pair en kr used p) :
    ∀ (fuel : ℕ) {gEn gKr : List Cue}, C1Loop en kr used pairs gEn gKr →
      C1Loop en kr used pairs (expandLoop en kr used fuel gEn gKr).1
        (expandLoop en kr used fuel gEn gKr).2 := by
  intro fuel
  induction fuel with
  | zero => exact fun h => h
  | succ fuel ih =>
    intro gEn gKr h
    rw [expandLoop]
    split
    · exact ih (c1loop_pass en kr used pairs hp h)
    · exact c1loop_pass en kr used pairs hp h

theorem nodup_of_distinctStarts {g : List Cue} (h : distinctStarts g) :
    g.Nodup := by
  rw [distinctStarts] at h
  exact h.imp (fun hne heq => hne (congrArg Cue.start_sec heq))

theorem eq_of_mem_of_start_eq {track : List Cue} (hd : distinctStarts track)
    {a b : Cue} (ha : a ∈ track) (hb : b ∈ track)
    (h : a.start_sec = b.start_sec) : a = b := by
  by_contra hne
  have hsymm : Symmetric fun a b : Cue => a.start_sec ≠ b.start_sec :=
    fun _ _ h' => Ne.symm h'
  exact hd.forall hsymm ha hb hne h

theorem findIdx?_eq_of_nodup :
    ∀ (kr : List Cue), kr.Nodup → ∀ (j i : ℕ) (k : Cue), kr[j]? = some k →
      kr.findIdx? (fun x => decide (x = k)) i = some (i + j) := by
  intro kr
  induction kr with
  | nil =>
    intro _ j i k h
    rw [List.getElem?_nil] at h
    cases h
  | cons x xs ih =>
    intro hnd j i k h
    rw [List.findIdx?_cons]
    cases j with
    | zero =>
      rw [List.getElem?_cons_zero] at h
      have hx : x = k := Option.some.inj h
      rw [if_pos (decide_eq_true hx), Nat.add_zero]
    | succ j =>
      rw [List.getElem?_cons_succ] at h
      have hx : x ≠ k := by
        intro he
        have hk : k ∈ xs := List.getElem?_mem h
        rw [he] at hnd
        exact (List.nodup_cons.1 hnd).1 hk
      rw [if_neg (fun hc => hx (of_decide_eq_true hc))]
      rw [ih (List.nodup_cons.1 hnd).2 j (i + 1) k h]
      congr 1
      omega

theorem findIdx?_start_zero {kr : List Cue} (hnd : kr.Nodup) {j : ℕ} {k : Cue}
    (h : kr[j]? = some k) :
    kr.findIdx? (fun x => decide (x = k)) = some j := by
  have H := findIdx?_eq_of_nodup kr hnd j 0 k h
  rwa [Nat.zero_add] at H

theorem markUsed_cons (kr : List Cue) (used : List ℕ) (c : Cue) (cs : List Cue) :
    markUsed kr used (c :: cs) =
      markUsed kr
        (match kr.findIdx? (fun x => decide (x = c)) with
         | some j => used.insert j
         | none => used) cs := rfl

theorem markUsed_mono (kr : List Cue) :
    ∀ (g : List Cue) (used : List ℕ) (j : ℕ),
      j ∈ used → j ∈ markUsed kr used g := by
  intro g
  induction g with
  | nil => exact fun used j h => h
  | cons c cs ih =>
    intro used j h
    rw [markUsed_cons]
    cases hidx : kr.findIdx? (fun x => decide (x = c)) with
    | some j' => exact ih _ j (List.mem_insert_of_mem h)
    | none => exact ih _ j h

theorem mem_markUsed_of_group (kr : List Cue) :
    ∀ (g : List Cue) (used : List ℕ) (k : Cue) (j : ℕ), k ∈ g →
      kr.findIdx? (fun x => decide (x = k)) = some j →
      j ∈ markUsed kr used g := by
  intro g
  induction g with
  | nil => intro _ _ _ hk; cases hk
  | cons c cs ih =>
    intro used k j hk hf
    rw [markUsed_cons]
    rcases List.mem_cons.1 hk with rfl | hk'
    · rw [hf]
      exact markUsed_mono kr cs _ j (List.mem_insert_self _ _)
    · cases hidx : kr.findIdx? (fun x => decide (x = c)) with
      | some j' => exact ih _ k j hk' hf
      | none => exact ih _ k j hk' hf

/-! ## Claim C1: the whole-run invariant -/

/-- The invariant of the seed loop's state: `processed_en_groups` mirrors
the emitted pairs' primary groups; every emitted pair satisfies the
`C1Pair` fixed-point facts and has all its secondary members' indices
marked consumed; and the emitted pairs consume pairwise-disjoint cues. -/
def C1Inv (en kr : List Cue) (st : SyncState) : Prop :=
  st.processed_en_groups = st.pairs.map SyncedPairExt.group_en ∧
  (∀ p ∈ st.pairs, C1Pair en kr st.used_kr p ∧
    ∀ k ∈ p.group_kr, ∀ j : ℕ, kr[j]? = some k → j ∈ st.used_kr) ∧
  st.pairs.Pairwise (fun p q =>
    (∀ c ∈ p.group_en, c ∉ q.group_en) ∧ (∀ c ∈ p.group_kr, c ∉ q.group_kr))

theorem c1inv_step (en kr : List Cue)
    (hkr : distinctStarts kr) (st : SyncState) (c : Cue) (hc : c ∈ en)
    (hinv : C1Inv en kr st) : C1Inv en kr (stepSeed en kr st c) := by
  rcases stepSeed_eq_or en kr st c with heq | ⟨mEn, mKr, _, hne, _, _, heq⟩
  · rw [heq]; exact hinv
  · rw [heq]
    obtain ⟨hproc, hpairs, hdisj⟩ := hinv
    set L := expandLoop en kr st.used_kr (loopFuel en kr) [c]
      (initialKrGroup c kr st.used_kr) with hLdef
    have hponly : ∀ p ∈ st.pairs, C1Pair en kr st.used_kr p :=
      fun p hp => (hpairs p hp).1
    have hploop : C1Loop en kr st.used_kr st.pairs L.1 L.2 :=
      c1loop_loop en kr st.used_kr st.pairs hponly (loopFuel en kr)
        (c1loop_entry en kr st.used_kr st.pairs hponly c hc hne)
    obtain ⟨hr1ne, hr2ne, hr1sub, hr2idx, hr2ol, hside⟩ := hploop
    have hg0mem := initialKrGroup_members c kr st.used_kr
    have hmarked : ∀ k ∈ L.2, ∀ j : ℕ, kr[j]? = some k →
        j ∈ markUsed kr st.used_kr L.2 := by
      intro k hk j hj
      exact mem_markUsed_of_group kr L.2 st.used_kr k j hk
        (findIdx?_start_zero (nodup_of_distinctStarts hkr) hj)
    have hfix : (expandPass en kr st.used_kr L.1 L.2).2.2 = false := by
      refine expandLoop_fixpoint en kr st.used_kr (loopFuel en kr) [c]
        (initialKrGroup c kr st.used_kr)
        (by rw [distinctStarts]; exact List.pairwise_singleton _ _)
        (initialKrGroup_distinct c kr st.used_kr) ?_ ?_ ?_
      · intro y hy
        rw [List.mem_singleton] at hy
        exact hy ▸ List.mem_map_of_mem _ hc
      · intro y hy
        obtain ⟨j, hj, _⟩ := (hg0mem y hy).2
        exact List.mem_map_of_mem _ (List.getElem?_mem hj)
      · rw [loopFuel]; omega
    obtain ⟨henflag, hkrflag⟩ := Bool.or_eq_false_iff.1 hfix
    have hA : (expandEn (minStart L.2) (maxEnd L.2) en L.1).1 = L.1 :=
      (expandEn_spec (minStart L.2) (maxEnd L.2) en L.1).2.1 henflag
    have hEnFix : ∀ W ∈ en, ¬ hasStart L.1 W.start_sec →
        ¬ ivOverlap (minStart L.2) (maxEnd L.2) W :=
      expandEn_fix (minStart L.2) (maxEnd L.2) en L.1 henflag
    have hKrFix : ∀ j : ℕ, j ∉ markUsed kr st.used_kr L.2 → ∀ k : Cue,
        kr[j]? = some k → ¬ ivOverlap (minStart L.1) (maxEnd L.1) k := by
      intro j hju k hj
      have hju0 : j ∉ st.used_kr :=
        fun hmem => hju (markUsed_mono kr L.2 st.used_kr j hmem)
      have hns : ¬ hasStart L.2 k.start_sec := by
        rintro ⟨m, hm, hms⟩
        obtain ⟨j', hj', _⟩ := hr2idx m hm
        have hmk : m = k := eq_of_mem_of_start_eq hkr
          (List.getElem?_mem hj') (List.getElem?_mem hj) hms
        exact hju (hmarked k (hmk ▸ hm) j hj)
      have H := expandKr_fix (minStart (expandEn (minStart L.2) (maxEnd L.2) en L.1).1)
        (maxEnd (expandEn (minStart L.2) (maxEnd L.2) en L.1).1) kr st.used_kr L.2
        hkrflag (j, k) (List.mk_mem_enum_iff_getElem?.2 hj) hju0 hns
      rwa [hA] at H
    have hdisjnew : ∀ p ∈ st.pairs,
        (∀ x ∈ p.group_en, x ∉ L.1) ∧ ∀ x ∈ p.group_kr, x ∉ L.2 := by
      intro p hp
      constructor
      · intro x hx hxL
        rcases hside p hp with ⟨_, hEl⟩ | ⟨_, hEr⟩
        · exact absurd (hEl x hxL) (not_lt.2 (minStart_le_of_mem hx))
        · exact absurd (hEr x hxL) (not_lt.2 (le_maxEnd_of_mem hx))
      · intro x hx hxL
        obtain ⟨j, hj, hju⟩ := hr2idx x hxL
        exact hju ((hpairs p hp).2 x hx j hj)
    refine ⟨?_, ?_, ?_⟩
    · show st.processed_en_groups ++ [L.1] = _
      rw [hproc]
      exact (List.map_append SyncedPairExt.group_en st.pairs
        [⟨mEn, ⟨mEn.start_sec, mEn.end_sec, mKr.text⟩, L.1, L.2⟩]).symm
    · intro p hp
      rcases List.mem_append.1 hp with hp' | hp'
      · obtain ⟨⟨hk1, hk2, hk3, hk4⟩, h5⟩ := hpairs p hp'
        refine ⟨⟨hk1, hk2, hk3, ?_⟩, ?_⟩
        · intro j hju k' hk'
          exact hk4 j
            (fun h => hju (markUsed_mono kr L.2 st.used_kr j h)) k' hk'
        · intro k hk j hj
          exact markUsed_mono kr L.2 st.used_kr j (h5 k hk j hj)
      · rw [List.mem_singleton] at hp'
        subst hp'
        exact ⟨⟨hr2ne, hr2ol, hEnFix, hKrFix⟩, hmarked⟩
    · rw [List.pairwise_append]
      refine ⟨hdisj, List.pairwise_singleton _ _, ?_⟩
      intro p hp q hq
      rw [List.mem_singleton] at hq
      subst hq
      exact hdisjnew p hp

theorem c1inv_foldl (en kr : List Cue) (hkr : distinctStarts kr) :
    ∀ (seeds : List Cue) (st0 : SyncState), (∀ x ∈ seeds, x ∈ en) →
      C1Inv en kr st0 → C1Inv en kr (seeds.foldl (stepSeed en kr) st0) := by
  intro seeds
  induction seeds with
  | nil => exact fun st0 _ h => h
  | cons c cs ih =>
    intro st0 hsub h
    rw [List.foldl_cons]
    exact ih _ (fun x hx => hsub x (List.mem_cons_of_mem _ hx))
      (c1inv_step en kr hkr st0 c (hsub c (List.mem_cons_self _ _)) h)

/-- C1 amended: when the start times within the secondary track are
pairwise distinct, consumption is exclusive — distinct output pairs draw on
disjoint sets of original cues on both tracks (duplicate primary-track
start times are harmless).  With duplicated secondary start times it fails:
the seed scan's dict overwrite can leave a same-start secondary cue
unconsumed, and the primary expansion, which checks no consumption, can
then re-absorb an already-consumed primary cue; see the counterexample. -/
theorem c1_consumption_exclusive (en kr : List Cue)
    (hkr : distinctStarts kr) : ConsumptionExclusive en kr := by
  have H := c1inv_foldl en kr hkr en ⟨[], [], []⟩ (fun x hx => hx)
    ⟨rfl, fun p hp => absurd hp (List.not_mem_nil p), List.Pairwise.nil⟩
  exact H.2.2

/-- C1 amended witness: the primary track has a duplicated start time, the
secondary track has distinct start times, and two pairs are emitted. -/
theorem c1_consumption_exclusive_witness :
    distinctStarts [(⟨0, 2, "p"⟩ : Cue), ⟨2, 3, "q"⟩] ∧
      ConsumptionExclusive [⟨0, 2, "A"⟩, ⟨0, 3, "B"⟩]
        [⟨0, 2, "p"⟩, ⟨2, 3, "q"⟩] :=
  ⟨by decide,
    c1_consumption_exclusive [⟨0, 2, "A"⟩, ⟨0, 3, "B"⟩] [⟨0, 2, "p"⟩, ⟨2, 3, "q"⟩]
      (by decide)⟩

end VTT
